import Mathlib

/-!
Verification development for the ppTranslator repository.

The repository translates PowerPoint slide XML: it extracts text blocks from
shapes (`ppt_xml_translator.py`), shrinks font sizes along a fixed ladder of
standard point sizes, re-segments the translated text along the original line
breaks, appends translated paragraphs cloned from the source styles, rewrites
the auto-fit markers of text bodies, and obtains translations from an Ollama
backend (`ollama_service/translate_service.py`).

This file gives a shallow embedding of the relevant code.  Python strings are
modelled as `List Char` (`Str`), Python floats arising from font-size
arithmetic as `ℚ` (all values reached by the code are exact decimals, so the
rational model agrees with the source on every input considered here), XML
element trees as a rose tree with an association list of attributes.
-/

namespace PPT

/-- Python strings are modelled as lists of characters. -/
abbrev Str := List Char

/-- The characters Python's `str.strip()` removes (ASCII whitespace; the
source never feeds non-ASCII whitespace to `strip`). -/
def isPySpace (c : Char) : Bool :=
  c == ' ' || c == '\t' || c == '\n' || c == '\r' || c == '\x0b' || c == '\x0c'

/-- `s.lstrip()` -/
def lstrip (s : Str) : Str := s.dropWhile isPySpace

/-- `s.rstrip()` -/
def rstrip (s : Str) : Str := (s.reverse.dropWhile isPySpace).reverse

/-- Python `s.strip()` -/
def pyStrip (s : Str) : Str := rstrip (lstrip s)

/-- Python `s.strip(chars)`: drop the given characters from both ends. -/
def pyStripChars (cs : Str) (s : Str) : Str :=
  ((s.dropWhile (fun c => cs.contains c)).reverse.dropWhile
    (fun c => cs.contains c)).reverse

/-- Python `str.lower()` restricted to ASCII letters.  The claims considered
here only concern ASCII case, where `Char.toLower` agrees with Python. -/
def pyLower (s : Str) : Str := s.map Char.toLower

/-- Multiplication of exact rationals, written with `Rat.divInt` so that
concrete instances evaluate inside `decide` (`Rat.mul` is irreducible);
`qMul_eq` identifies it with `·*·` on `ℚ`. -/
def qMul (a b : ℚ) : ℚ := Rat.divInt (a.num * b.num) ((a.den : ℤ) * (b.den : ℤ))

theorem qMul_eq (a b : ℚ) : qMul a b = a * b := by
  rw [qMul, Rat.divInt_eq_div]
  push_cast
  rw [show ((a.num : ℚ) * b.num / (a.den * b.den) : ℚ)
        = (a.num / a.den) * (b.num / b.den) by ring,
    Rat.num_div_den, Rat.num_div_den]

theorem ratFloor_eq (q : ℚ) : Rat.floor q = ⌊q⌋ := by
  rw [Rat.floor_def', Rat.floor_def]

/-- Python `round(x)`: round half to even.  The fractional part
`x - floor x` is compared with `1/2` in integer form: `x - floor x < 1/2`
iff `2·(num − floor·den) < den`. -/
def pyRound (x : ℚ) : ℤ :=
  if 2 * (x.num - Rat.floor x * (x.den : ℤ)) < (x.den : ℤ) then Rat.floor x
  else if (x.den : ℤ) < 2 * (x.num - Rat.floor x * (x.den : ℤ)) then Rat.floor x + 1
  else if Rat.floor x % 2 = 0 then Rat.floor x else Rat.floor x + 1

/-- Python `int(x)` on a float/rational: truncate toward zero. -/
def pyTrunc (x : ℚ) : ℤ := if 0 ≤ x then Rat.floor x else -(Rat.floor (-x))

/-- Digit-string value, `none` if empty or a non-digit occurs. -/
def digitsVal : Str → Option ℕ
  | [] => none
  | ds =>
    ds.foldl
      (fun acc c =>
        acc.bind (fun n => if c.isDigit then some (10 * n + (c.toNat - 48)) else none))
      (some 0)

/-- Python `int(s)` on a string: strip whitespace, optional sign, decimal
digits; `none` models the `ValueError` path.  (Underscore separators and
non-ASCII digits, which Python also accepts, never occur in the documents
the source processes.) -/
def pyInt (s : Str) : Option ℤ :=
  match pyStrip s with
  | '-' :: ds => (digitsVal ds).map (fun n => -(n : ℤ))
  | '+' :: ds => (digitsVal ds).map (fun n => (n : ℤ))
  | ds => (digitsVal ds).map (fun n => (n : ℤ))

/-- `str(n)` for the integers the code writes back into attributes. -/
def intToStr (n : ℤ) : Str := (toString n).toList

/-- `self.ppt_font_sizes`: the fixed descending ladder of standard sizes. -/
def ppt_font_sizes : List ℚ :=
  [72, 48, 44, 40, 36, 32, 28, 24, 20, 18, 16, 14, 12, 11, 10, 9, 8, 7, 6, 5]

/-- `self.min_font_size` -/
def min_font_size : ℚ := 5

/-- The scan inside `get_next_smaller_size`: walk the ladder; at the first
entry `≤ rounded` return the entry two positions further down when it exists
(`i + 2 < len`), otherwise the minimum size; if no entry matches, the minimum
size. -/
def nextSmallerFrom (rounded : ℚ) : List ℚ → ℚ
  | [] => min_font_size
  | s :: rest =>
    if s ≤ rounded then
      match rest with
      | _ :: s2 :: _ => s2
      | _ => min_font_size
    else nextSmallerFrom rounded rest

/-- `get_next_smaller_size(current_size)`: round to the nearest half point,
then scan the ladder. -/
def get_next_smaller_size (current_size : ℚ) : ℚ :=
  let rounded_size : ℚ := Rat.divInt (pyRound (qMul current_size 2)) 2
  nextSmallerFrom rounded_size ppt_font_sizes

/-- `point_to_size(point_size)`: points to hundredths of a point. -/
def point_to_size (point_size : ℚ) : ℤ := pyTrunc (qMul point_size 100)

/-- `size_to_point(size)`: hundredths of a point to points. -/
def size_to_point (size : ℤ) : ℚ := Rat.divInt size 100

/-- `adjust_font_size(size, is_translation)` -/
def adjust_font_size (size : ℤ) (is_translation : Bool) : ℤ :=
  let point_size := size_to_point size
  let new1 := get_next_smaller_size point_size
  let new2 := if is_translation then get_next_smaller_size new1 else new1
  point_to_size (max new2 min_font_size)

theorem nextSmallerFrom_mem (r : ℚ) :
    ∀ l : List ℚ, nextSmallerFrom r l ∈ l ∨ nextSmallerFrom r l = min_font_size := by
  intro l
  induction l with
  | nil => right; rfl
  | cons s rest ih =>
    by_cases h : s ≤ r
    · match rest with
      | [] => right; simp [nextSmallerFrom, h]
      | [s1] => right; simp [nextSmallerFrom, h]
      | s1 :: s2 :: t => left; simp [nextSmallerFrom, h]
    · rcases ih with hm | he
      · left; simp only [nextSmallerFrom, if_neg h]; exact List.mem_cons_of_mem _ hm
      · right; simpa [nextSmallerFrom, h] using he

theorem nextSmallerFrom_le (r : ℚ) :
    ∀ l : List ℚ, List.Chain' (fun a b => b + 1 ≤ a) l →
      nextSmallerFrom r l ≤ r - 2 ∨ nextSmallerFrom r l = min_font_size := by
  intro l
  induction l with
  | nil => intro _; right; rfl
  | cons s rest ih =>
    intro hch
    by_cases h : s ≤ r
    · cases rest with
      | nil => right; simp [nextSmallerFrom, h]
      | cons s1 rest1 =>
        cases rest1 with
        | nil => right; simp [nextSmallerFrom, h]
        | cons s2 t =>
          left
          have h1 : s1 + 1 ≤ s := (List.chain'_cons.mp hch).1
          have h2 : s2 + 1 ≤ s1 := (List.chain'_cons.mp (List.chain'_cons.mp hch).2).1
          simp only [nextSmallerFrom, if_pos h]
          linarith
    · simp only [nextSmallerFrom, if_neg h]
      exact ih hch.tail

theorem pyRound_le (x : ℚ) : (pyRound x : ℚ) ≤ x + 1/2 := by
  have hf : (Rat.floor x : ℚ) ≤ x := by
    rw [ratFloor_eq]; exact_mod_cast Int.floor_le x
  have hden : (0 : ℚ) < (x.den : ℚ) := by exact_mod_cast x.den_pos
  have hdz : ((x.den : ℚ)) ≠ 0 := ne_of_gt hden
  have hnum : (x.num : ℚ) = x * (x.den : ℚ) := by
    have h := Rat.num_div_den x
    rw [div_eq_iff hdz] at h
    linarith
  unfold pyRound
  split
  · linarith
  · rename_i h1
    split
    · rename_i h2
      have h2' : (x.den : ℚ) < 2 * ((x.num : ℚ) - (Rat.floor x : ℚ) * (x.den : ℚ)) := by
        exact_mod_cast h2
      rw [hnum] at h2'
      push_cast
      nlinarith
    · rename_i h2
      have hd : 2 * (x.num - Rat.floor x * (x.den : ℤ)) = (x.den : ℤ) := by omega
      have hd' : 2 * ((x.num : ℚ) - (Rat.floor x : ℚ) * (x.den : ℚ)) = (x.den : ℚ) := by
        exact_mod_cast hd
      rw [hnum] at hd'
      have hx : x = (Rat.floor x : ℚ) + 1/2 := by
        have h0 : (2 * (x - (Rat.floor x : ℚ)) - 1) * (x.den : ℚ) = 0 := by
          linear_combination hd'
        rcases mul_eq_zero.mp h0 with h | h
        · linarith
        · exact absurd h hdz
      split
      · linarith
      · push_cast
        linarith

theorem ladder_chain : List.Chain' (fun a b : ℚ => b + 1 ≤ a) ppt_font_sizes := by
  unfold ppt_font_sizes
  norm_num

/-- C2: for every font size `s` at or above the 5-point floor,
`get_next_smaller_size s` is a ladder member or the floor, and is `≤ s`.
(For `s` below the floor the second part fails; see the counterexample.) -/
theorem get_next_smaller_size_spec (s : ℚ) (h : 5 ≤ s) :
    (get_next_smaller_size s ∈ ppt_font_sizes ∨ get_next_smaller_size s = min_font_size)
    ∧ get_next_smaller_size s ≤ s := by
  constructor
  · exact nextSmallerFrom_mem _ ppt_font_sizes
  · unfold get_next_smaller_size
    set r : ℚ := Rat.divInt (pyRound (qMul s 2)) 2 with hr
    have hrle : r ≤ s + 1/4 := by
      have hb := pyRound_le (s * 2)
      rw [hr, Rat.divInt_eq_div, qMul_eq]
      push_cast
      linarith
    rcases nextSmallerFrom_le r ppt_font_sizes ladder_chain with hle | heq
    · linarith
    · rw [heq]; unfold min_font_size; linarith

/-- C2 witness: at 24 points the result is 18, a ladder member `≤ 24`. -/
theorem get_next_smaller_size_spec_witness :
    (5 : ℚ) ≤ 24 ∧
    ((get_next_smaller_size 24 ∈ ppt_font_sizes ∨ get_next_smaller_size 24 = min_font_size)
      ∧ get_next_smaller_size 24 ≤ 24) :=
  ⟨by norm_num, get_next_smaller_size_spec 24 (by norm_num)⟩

/-- C2 counterexample: at 4 points (a positive size below the floor) the code
returns the 5-point floor, which is **greater** than the input, refuting
`get_next_smaller_size s ≤ s` for arbitrary positive `s`. -/
theorem get_next_smaller_size_counterexample :
    get_next_smaller_size 4 = 5 ∧ ¬ get_next_smaller_size 4 ≤ 4 := by
  constructor
  · decide
  · decide

/-- Worker for `replaceAll`: the `Nat` argument counts pattern characters
still to skip after a match (structural recursion so that concrete instances
evaluate inside `decide`). -/
def replaceAllGo (pat rep : Str) : Str → Nat → Str
  | [], _ => []
  | c :: rest, 0 =>
    if pat ≠ [] ∧ pat.isPrefixOf (c :: rest) then
      rep ++ replaceAllGo pat rep rest (pat.length - 1)
    else
      c :: replaceAllGo pat rep rest 0
  | _ :: rest, k + 1 => replaceAllGo pat rep rest k

/-- Python `haystack.replace(pat, rep)`: replace all occurrences left to
right.  (All patterns the source passes are nonempty; for `pat = []` this
model leaves the string unchanged.) -/
def replaceAll (pat rep : Str) (s : Str) : Str := replaceAllGo pat rep s 0

/-- Worker for `splitOnSub`; the `Nat` argument counts separator characters
still to skip after a match. -/
def splitOnSubGo (sep : Str) : Str → Nat → List Str
  | [], _ => [[]]
  | c :: rest, 0 =>
    if sep ≠ [] ∧ sep.isPrefixOf (c :: rest) then
      [] :: splitOnSubGo sep rest (sep.length - 1)
    else
      match splitOnSubGo sep rest 0 with
      | [] => [[c]]
      | s :: ss => (c :: s) :: ss
  | _ :: rest, k + 1 => splitOnSubGo sep rest k

/-- Python `s.split(sep)` for a nonempty separator: empty fragments are kept
(the source filters them afterwards). -/
def splitOnSub (sep : Str) (s : Str) : List Str := splitOnSubGo sep s 0

/-- Worker for `pySplitWs`: `cur` is the current word, reversed. -/
def pySplitWsGo : Str → Str → List Str
  | [], cur => if cur = [] then [] else [cur.reverse]
  | c :: rest, cur =>
    if isPySpace c then
      if cur = [] then pySplitWsGo rest [] else cur.reverse :: pySplitWsGo rest []
    else
      pySplitWsGo rest (c :: cur)

/-- Python `s.split()` with no argument: split on whitespace runs, dropping
empty pieces. -/
def pySplitWs (s : Str) : List Str := pySplitWsGo s []

/-- Python `" ".join(pieces)`. -/
def joinWithSpace : List Str → Str
  | [] => []
  | [x] => x
  | x :: xs => x ++ ' ' :: joinWithSpace xs

/-- The format-marker patterns removed for the `llama3:8b` model. -/
def llamaMarkers : List Str :=
  ["<s>".toList, "</s>".toList, "[INST]".toList, "[/INST]".toList,
    "Assistant:".toList, "Human:".toList]

/-- The translation-related prefix list of `clean_translation`. -/
def cleanPrefixes : List Str :=
  ["translation:".toList, "here\x27s the translation:".toList,
    "translated text:".toList,
    "翻译:".toList, "译文:".toList, "中文翻译:".toList, "英文翻译:".toList,
    "transliteration:".toList, "explanation:".toList, "note:".toList,
    "chinese:".toList, "english:".toList]

/-- The explanatory phrases removed by `clean_translation`. -/
def cleanExplanations : List Str :=
  ["only the translation is provided".toList,
    "only translation returned".toList,
    "direct translation:".toList,
    "translated version:".toList,
    "translation result:".toList,
    "chinese text:".toList,
    "english text:".toList,
    "original text:".toList]

/-- One step of the prefix-removal loop: if the lowercased text starts with
the prefix, drop that many characters from the original text and strip. -/
def cleanPrefixStep (text : Str) (pre : Str) : Str :=
  if pre.isPrefixOf (pyLower text) then pyStrip (text.drop pre.length) else text

/-- One step of the explanation-removal loop:
`text = text.lower().replace(exp, "").strip()`. -/
def cleanExplanationStep (text : Str) (e : Str) : Str :=
  pyStrip (replaceAll e [] (pyLower text))

/-- The quote/bracket stripping chain
`text.strip(QUOT).strip(APOS).strip("(").strip(")").strip("[").strip("]")`. -/
def stripQuotesBrackets (t : Str) : Str :=
  pyStripChars [']']
    (pyStripChars ['[']
      (pyStripChars [')']
        (pyStripChars ['(']
          (pyStripChars ['\x27'] (pyStripChars ['"'] t)))))

/-- The characters kept by the zh→en filter (besides all non-CJK
codepoints). -/
def zh2enAllowed : Str :=
  "abcdefghijklmnopqrstuvwxyzABCDEFGHIJKLMNOPQRSTUVWXYZ0123456789 .,!?;:\x27\"-()[]\x7b\x7d/".toList

/-- The characters kept by the en→zh filter (besides CJK codepoints). -/
def en2zhAllowed : Str := "，。！？、（）:;,.!?()- ".toList

/-- The per-language character filter at the end of `clean_translation`. -/
def langFilter (from_lang to_lang : String) (t : Str) : Str :=
  if from_lang = "zh" ∧ to_lang = "en" then
    t.filter (fun c => zh2enAllowed.contains c || c.toNat < 0x4e00 || 0x9fff < c.toNat)
  else if from_lang = "en" ∧ to_lang = "zh" then
    t.filter (fun c => en2zhAllowed.contains c || (0x4e00 ≤ c.toNat && c.toNat ≤ 0x9fff))
  else t

/-- `OllamaTranslator.clean_translation(text, from_lang, to_lang)`.
`model_name` is the constructor-fixed model of the translator instance. -/
def clean_translation (model_name : String) (text : Str) (from_lang to_lang : String) : Str :=
  if text = [] then text
  else
    let t1 := pyStrip text
    let t2 := if model_name = "llama3:8b" then
        llamaMarkers.foldl (fun t p => replaceAll p [] t) t1
      else t1
    let t3 := cleanPrefixes.foldl cleanPrefixStep t2
    let t4 := stripQuotesBrackets t3
    let t5 := cleanExplanations.foldl cleanExplanationStep t4
    let t6 := langFilter from_lang to_lang t5
    pyStrip (joinWithSpace (pySplitWs t6))

/-- The marked placeholder `"[Translation Error for: " + text + "]"`. -/
def errPlaceholder (text : Str) : Str :=
  "[Translation Error for: ".toList ++ text ++ "]".toList

/-- `OllamaTranslator.translate(text, from_lang, to_lang)`.  The backend
call is external: `resp = some raw` models a successful HTTP round trip
whose (stripped) `response` field is `raw`; `resp = none` models the
exception path. -/
def translate (model_name : String) (resp : Option Str) (text : Str)
    (from_lang to_lang : String) : Str :=
  if text = [] ∨ pyStrip text = [] then text
  else
    match resp with
    | none => errPlaceholder text
    | some raw =>
      let cleaned := clean_translation model_name (pyStrip raw) from_lang to_lang
      if pyStrip cleaned ≠ [] then cleaned else errPlaceholder text

/-- Python `s.isspace()`. -/
def pyIsSpace (t : Str) : Bool := t ≠ [] && t.all isPySpace

/-- The fragment list `batch_translate` builds from the raw batch response:
split on the reserved separator, strip, drop empties, then drop
whitespace-only fragments. -/
def batchFragments (raw : Str) : List Str :=
  let translated := pyStrip raw
  let translations :=
    ((splitOnSub "|||".toList translated).map pyStrip).filter (fun t => t ≠ [])
  translations.filter (fun t => t ≠ [] && !pyIsSpace t)

/-- The validation/cleaning loop of `batch_translate`: clean each fragment;
keep it when nonempty after cleaning, otherwise substitute the placeholder
for the like-indexed input when such an input exists (fragments beyond the
input count whose cleaning is empty are silently skipped). -/
def cleanedTranslations (model_name : String) (texts : List Str)
    (from_lang to_lang : String) (translations : List Str) : List Str :=
  translations.enum.foldl
    (fun acc it =>
      let cleaned := clean_translation model_name it.2 from_lang to_lang
      if pyStrip cleaned ≠ [] then acc ++ [cleaned]
      else if it.1 < texts.length then acc ++ [errPlaceholder (texts.getD it.1 [])]
      else acc)
    []

/-- `OllamaTranslator.batch_translate(texts, from_lang, to_lang)`.
`single` is the per-item `self.translate` oracle (with the language pair
fixed); `resp` models the batch HTTP call as in `translate`. -/
def batch_translate (model_name : String) (single : Str → Str) (resp : Option Str)
    (texts : List Str) (from_lang to_lang : String) : List Str :=
  if texts = [] then []
  else
    match resp with
    | none => texts.map single
    | some raw =>
      let cleaned := cleanedTranslations model_name texts from_lang to_lang (batchFragments raw)
      if cleaned.length ≠ texts.length then
        cleaned ++ (List.range (texts.length - cleaned.length)).map
          (fun k => single (texts.getD (cleaned.length + k) []))
      else cleaned

theorem toNat_ofNat_valid (n : Nat) (h : n.isValidChar) : (Char.ofNat n).toNat = n := by
  rw [Char.ofNat, dif_pos h]
  simp [Char.ofNatAux, Char.toNat, UInt32.toNat, BitVec.toNat_ofNatLt]

/-- No character of the given code is an ASCII uppercase letter. -/
def noUpperChar (c : Char) : Bool := decide (c.toNat < 65) || decide (90 < c.toNat)

/-- A string without ASCII uppercase letters. -/
def NoUpper (l : Str) : Prop := ∀ c ∈ l, noUpperChar c = true

theorem toLower_noUpperChar (c : Char) : noUpperChar (Char.toLower c) = true := by
  unfold Char.toLower noUpperChar
  by_cases h : c.toNat ≥ 65 ∧ c.toNat ≤ 90
  · rw [if_pos h]
    have hv : (c.toNat + 32).isValidChar := by
      constructor
      omega
    simp only [Bool.or_eq_true, decide_eq_true_eq, toNat_ofNat_valid _ hv]
    omega
  · rw [if_neg h]
    simp only [Bool.or_eq_true, decide_eq_true_eq]
    omega

theorem noUpper_pyLower (s : Str) : NoUpper (pyLower s) := by
  intro c hc
  rcases List.mem_map.mp hc with ⟨c0, _, rfl⟩
  exact toLower_noUpperChar c0

theorem NoUpper.of_subset {l l' : Str} (h : NoUpper l') (hs : ∀ c ∈ l, c ∈ l') : NoUpper l :=
  fun c hc => h c (hs c hc)

theorem dropEnds_sublist (p : Char → Bool) (s : Str) :
    List.Sublist ((s.dropWhile p).reverse.dropWhile p).reverse s := by
  have h1 : List.Sublist (s.dropWhile p) s := (List.dropWhile_suffix p).sublist
  have h2 : List.Sublist ((s.dropWhile p).reverse.dropWhile p) (s.dropWhile p).reverse :=
    (List.dropWhile_suffix p).sublist
  have h3 := h2.reverse
  rw [List.reverse_reverse] at h3
  exact h3.trans h1

theorem pyStrip_sublist (s : Str) : List.Sublist (pyStrip s) s :=
  dropEnds_sublist isPySpace s

theorem pyStripChars_sublist (cs : Str) (s : Str) :
    List.Sublist (pyStripChars cs s) s :=
  dropEnds_sublist (fun c => cs.contains c) s

theorem replaceAllGo_sublist (pat : Str) (s : Str) :
    ∀ k, List.Sublist (replaceAllGo pat [] s k) s := by
  induction s with
  | nil => intro k; simp [replaceAllGo]
  | cons c rest ih =>
    intro k
    cases k with
    | zero =>
      by_cases h : pat ≠ [] ∧ pat.isPrefixOf (c :: rest)
      · rw [replaceAllGo, if_pos h]
        simp only [List.nil_append]
        exact (ih _).cons c
      · rw [replaceAllGo, if_neg h]
        exact (ih 0).cons₂ c
    | succ k => exact (ih k).cons c

theorem replaceAll_sublist (pat : Str) (s : Str) :
    List.Sublist (replaceAll pat [] s) s :=
  replaceAllGo_sublist pat s 0

theorem cleanExplanationStep_noUpper (t e : Str) : NoUpper (cleanExplanationStep t e) := by
  apply (noUpper_pyLower t).of_subset
  intro c hc
  exact (replaceAll_sublist e (pyLower t)).subset
    ((pyStrip_sublist (replaceAll e [] (pyLower t))).subset hc)

theorem foldl_cleanExplanationStep_noUpper :
    ∀ (es : List Str) (t : Str), es ≠ [] → NoUpper (es.foldl cleanExplanationStep t) := by
  intro es
  induction es with
  | nil => intro t h; exact absurd rfl h
  | cons e es ih =>
    intro t _
    cases es with
    | nil => exact cleanExplanationStep_noUpper t e
    | cons e2 es2 => exact ih (cleanExplanationStep t e) (by simp)

theorem langFilter_noUpper (fl tl : String) (t : Str) (h : NoUpper t) :
    NoUpper (langFilter fl tl t) := by
  unfold langFilter
  split
  · exact h.of_subset (fun c hc => (List.mem_filter.mp hc).1)
  · split
    · exact h.of_subset (fun c hc => (List.mem_filter.mp hc).1)
    · exact h

theorem pySplitWsGo_mem_subset :
    ∀ (s : Str) (cur : Str) (x : Str), x ∈ pySplitWsGo s cur →
      ∀ c ∈ x, c ∈ s ∨ c ∈ cur := by
  intro s
  induction s with
  | nil =>
    intro cur x hx c hc
    rw [pySplitWsGo] at hx
    split at hx
    · simp at hx
    · rw [List.mem_singleton] at hx
      subst hx
      exact Or.inr (List.mem_reverse.mp hc)
  | cons c0 rest ih =>
    intro cur x hx c hc
    rw [pySplitWsGo] at hx
    split at hx
    · split at hx
      · rcases ih [] x hx c hc with h | h
        · exact Or.inl (List.mem_cons_of_mem c0 h)
        · simp at h
      · rcases List.mem_cons.mp hx with rfl | hx2
        · exact Or.inr (List.mem_reverse.mp hc)
        · rcases ih [] x hx2 c hc with h | h
          · exact Or.inl (List.mem_cons_of_mem c0 h)
          · simp at h
    · rcases ih (c0 :: cur) x hx c hc with h | h
      · exact Or.inl (List.mem_cons_of_mem c0 h)
      · rcases List.mem_cons.mp h with rfl | h2
        · exact Or.inl (List.mem_cons_self _ _)
        · exact Or.inr h2

theorem pySplitWs_mem_subset :
    ∀ (s : Str) (x : Str), x ∈ pySplitWs s → ∀ c ∈ x, c ∈ s := by
  intro s x hx c hc
  rcases pySplitWsGo_mem_subset s [] x hx c hc with h | h
  · exact h
  · simp at h

theorem joinWithSpace_mem :
    ∀ (L : List Str) (c : Char), c ∈ joinWithSpace L → c = ' ' ∨ ∃ x ∈ L, c ∈ x := by
  intro L
  induction L with
  | nil => intro c hc; simp [joinWithSpace] at hc
  | cons x xs ih =>
    intro c hc
    cases xs with
    | nil =>
      right
      exact ⟨x, List.mem_cons_self _ _, hc⟩
    | cons y t =>
      rcases List.mem_append.mp hc with hx | hrest
      · right; exact ⟨x, List.mem_cons_self _ _, hx⟩
      · rcases List.mem_cons.mp hrest with rfl | hj
        · left; rfl
        · rcases ih c hj with hsp | ⟨z, hz, hcz⟩
          · left; exact hsp
          · right; exact ⟨z, List.mem_cons_of_mem x hz, hcz⟩

/-- C10: for every model, input string and language pair, the result of
`clean_translation` contains no ASCII uppercase letter — the
explanation-removal loop lowercases the whole text unconditionally and no
later step reintroduces uppercase. -/
theorem clean_translation_no_upper (model_name : String) (text : Str)
    (from_lang to_lang : String) :
    (clean_translation model_name text from_lang to_lang).all noUpperChar = true := by
  rw [List.all_eq_true]
  unfold clean_translation
  split
  · rename_i h
    intro c hc
    rw [h] at hc
    simp at hc
  · intro c hc
    have h5 : NoUpper (cleanExplanations.foldl cleanExplanationStep
        (stripQuotesBrackets (cleanPrefixes.foldl cleanPrefixStep
          (if model_name = "llama3:8b" then
              llamaMarkers.foldl (fun t p => replaceAll p [] t) (pyStrip text)
            else pyStrip text)))) := by
      apply foldl_cleanExplanationStep_noUpper
      simp [cleanExplanations]
    have h6 := langFilter_noUpper from_lang to_lang _ h5
    have hc' := (pyStrip_sublist _).subset hc
    rcases joinWithSpace_mem _ c hc' with rfl | ⟨x, hx, hcx⟩
    · decide
    · exact h6 c (pySplitWs_mem_subset _ x hx c hcx)

theorem countP_dropEnds (p : Char → Bool) (q : Char → Bool)
    (hq : ∀ c, p c = true → q c = false) (s : Str) :
    (((s.dropWhile p).reverse.dropWhile p).reverse).countP q = s.countP q := by
  have step : ∀ (l : Str), (l.dropWhile p).countP q = l.countP q := by
    intro l
    conv_rhs => rw [← List.takeWhile_append_dropWhile (p := p) (l := l)]
    rw [List.countP_append]
    have hz : (l.takeWhile p).countP q = 0 := by
      rw [List.countP_eq_zero]
      intro c hc
      simp [hq c (List.mem_takeWhile_imp hc)]
    omega
  rw [List.countP_reverse, step, List.countP_reverse, step]

theorem countP_pyStrip (s : Str) :
    (pyStrip s).countP (fun c => !isPySpace c) = s.countP (fun c => !isPySpace c) := by
  exact countP_dropEnds isPySpace (fun c => !isPySpace c) (fun c h => by simp [h]) s

theorem pyStrip_ne_nil (s : Str) (c : Char) (hc : c ∈ s) (hns : isPySpace c = false) :
    pyStrip s ≠ [] := by
  intro h
  have h1 : s.countP (fun c => !isPySpace c) = 0 := by
    rw [← countP_pyStrip, h]
    rfl
  rw [List.countP_eq_zero] at h1
  have := h1 c hc
  simp [hns] at this

theorem errPlaceholder_strip_ne_nil (text : Str) : pyStrip (errPlaceholder text) ≠ [] := by
  apply pyStrip_ne_nil _ '['
  · unfold errPlaceholder
    apply List.mem_append_left
    apply List.mem_append_left
    decide
  · decide

/-- C6: for every input whose stripped form is nonempty, `translate` returns
a string that is nonempty after stripping, and that string is either the
cleaned translation of the (stripped) backend response or the marked
placeholder built around the original text; the placeholder contains the
original text as a contiguous substring. -/
theorem translate_spec (model_name : String) (resp : Option Str) (text : Str)
    (from_lang to_lang : String) (h : pyStrip text ≠ []) :
    pyStrip (translate model_name resp text from_lang to_lang) ≠ []
    ∧ ((∃ raw, resp = some raw ∧
          translate model_name resp text from_lang to_lang
            = clean_translation model_name (pyStrip raw) from_lang to_lang)
        ∨ translate model_name resp text from_lang to_lang = errPlaceholder text)
    ∧ List.IsInfix text (errPlaceholder text) := by
  have hinf : List.IsInfix text (errPlaceholder text) :=
    ⟨"[Translation Error for: ".toList, "]".toList, by simp [errPlaceholder]⟩
  have hne : ¬ (text = [] ∨ pyStrip text = []) := by
    rintro (rfl | hs)
    · exact h rfl
    · exact h hs
  unfold translate
  rw [if_neg hne]
  match resp with
  | none =>
    exact ⟨errPlaceholder_strip_ne_nil text, Or.inr rfl, hinf⟩
  | some raw =>
    dsimp only
    by_cases hcl :
        pyStrip (clean_translation model_name (pyStrip raw) from_lang to_lang) ≠ []
    · rw [if_pos hcl]
      exact ⟨hcl, Or.inl ⟨raw, rfl, rfl⟩, hinf⟩
    · rw [if_neg hcl]
      exact ⟨errPlaceholder_strip_ne_nil text, Or.inr rfl, hinf⟩

/-- C6 witness: a failing backend call on input `"Hi"` yields the marked
placeholder, which strips to a nonempty string. -/
theorem translate_spec_witness :
    pyStrip "Hi".toList ≠ [] ∧
    (pyStrip (translate "qwen:7b" none "Hi".toList "zh" "en") ≠ []
      ∧ ((∃ raw, (none : Option Str) = some raw ∧
            translate "qwen:7b" none "Hi".toList "zh" "en"
              = clean_translation "qwen:7b" (pyStrip raw) "zh" "en")
          ∨ translate "qwen:7b" none "Hi".toList "zh" "en" = errPlaceholder "Hi".toList)
      ∧ List.IsInfix "Hi".toList (errPlaceholder "Hi".toList)) :=
  ⟨by decide, translate_spec "qwen:7b" none "Hi".toList "zh" "en" (by decide)⟩

theorem range_map_getD_eq_drop_map (f : Str → Str) (l : List Str) (n : ℕ) :
    (List.range (l.length - n)).map (fun k => f (l.getD (n + k) [])) = (l.drop n).map f := by
  apply List.ext_getElem
  · simp
  · intro i h1 h2
    simp only [List.getElem_map, List.getElem_range, List.getElem_drop]
    rw [List.getD_eq_getElem]

/-- C4 (amended): `batch_translate` never returns fewer than `N` strings;
when the cleaned response yields at most `N` usable translations, the
missing tail is backfilled in order by per-item `translate` calls on exactly
the remaining inputs, so no input block is dropped.  (When the response
splits into more than `N` usable fragments, the result has more than `N`
entries; see the counterexample.) -/
theorem batch_translate_spec (model_name : String) (single : Str → Str)
    (resp : Option Str) (texts : List Str) (from_lang to_lang : String)
    (h : texts ≠ []) :
    texts.length ≤ (batch_translate model_name single resp texts from_lang to_lang).length
    ∧ ∀ raw, resp = some raw →
        (cleanedTranslations model_name texts from_lang to_lang (batchFragments raw)).length
            ≤ texts.length →
        batch_translate model_name single resp texts from_lang to_lang
          = cleanedTranslations model_name texts from_lang to_lang (batchFragments raw)
            ++ (texts.drop
                (cleanedTranslations model_name texts from_lang to_lang
                  (batchFragments raw)).length).map single := by
  unfold batch_translate
  rw [if_neg h]
  match resp with
  | none =>
    constructor
    · rw [List.length_map]
    · intro raw hraw
      exact absurd hraw (by simp)
  | some raw =>
    dsimp only
    constructor
    · split
      · rw [List.length_append, List.length_map, List.length_range]
        omega
      · rename_i hlen
        push_neg at hlen
        omega
    · intro raw2 hraw2 hle
      have hr : raw2 = raw := by
        injection hraw2.symm
      subst hr
      rw [range_map_getD_eq_drop_map]
      split
      · rfl
      · rename_i hlen
        push_neg at hlen
        rw [hlen, List.drop_length]
        simp

/-- C4 witness: one input, a usable single-fragment batch response: the
result is that single cleaned fragment with an empty backfill. -/
theorem batch_translate_spec_witness :
    (["hi".toList] : List Str) ≠ [] ∧
    ((["hi".toList] : List Str).length
        ≤ (batch_translate "qwen:7b" (fun t => t) (some "bonjour".toList)
            ["hi".toList] "zh" "en").length
      ∧ ∀ raw, (some "bonjour".toList : Option Str) = some raw →
          (cleanedTranslations "qwen:7b" ["hi".toList] "zh" "en"
              (batchFragments raw)).length ≤ (["hi".toList] : List Str).length →
          batch_translate "qwen:7b" (fun t => t) (some "bonjour".toList)
              ["hi".toList] "zh" "en"
            = cleanedTranslations "qwen:7b" ["hi".toList] "zh" "en" (batchFragments raw)
              ++ ((["hi".toList] : List Str).drop
                  (cleanedTranslations "qwen:7b" ["hi".toList] "zh" "en"
                    (batchFragments raw)).length).map (fun t => t)) :=
  ⟨by decide, batch_translate_spec "qwen:7b" (fun t => t) (some "bonjour".toList)
    ["hi".toList] "zh" "en" (by decide)⟩

/-- C4 counterexample: with a single input and a batch response that splits
into two usable fragments, `batch_translate` returns two strings, not
exactly one — the count-matching step only backfills shortfalls and never
truncates surpluses. -/
theorem batch_translate_counterexample :
    (batch_translate "qwen:7b" (fun t => t) (some "Hello|||World".toList)
        ["a".toList] "zh" "en").length = 2
    ∧ (["a".toList] : List Str).length = 1 ∧ (2 : ℕ) ≠ 1 := by
  refine ⟨?_, by decide, by decide⟩
  decide

/-- An XML element: tag, attribute map (in insertion order, as a Python
dict), element text, and child elements.  Tags are written with their source
prefixes (`p:` presentation namespace, `a:` drawing namespace) instead of
the expanded URIs the source registers once at construction. -/
inductive XML where
  | elem (tag : String) (attrs : List (String × Str)) (text : Option Str) (children : List XML)

/-- The element's tag. -/
def XML.tag : XML → String
  | .elem t _ _ _ => t

/-- The element's attribute map. -/
def XML.attrs : XML → List (String × Str)
  | .elem _ a _ _ => a

/-- The element's text. -/
def XML.body : XML → Option Str
  | .elem _ _ tx _ => tx

/-- The element's children. -/
def XML.children : XML → List XML
  | .elem _ _ _ cs => cs

/-- `attrs.get(name)` on a Python attribute dict (keys are unique in a
dict, so first-match semantics coincide). -/
def getAttr : List (String × Str) → String → Option Str
  | [], _ => none
  | p :: a, name => if p.1 = name then some p.2 else getAttr a name

/-- `elem.set(name, v)`: replace in place when the key is present, else
append (Python dict update order). -/
def setAttr : List (String × Str) → String → Str → List (String × Str)
  | [], name, v => [(name, v)]
  | p :: a, name, v => if p.1 = name then (name, v) :: a else p :: setAttr a name v

/-- `del elem.attrib[name]` (no-op when absent; the source always guards the
deletion with a membership test). -/
def delAttr : List (String × Str) → String → List (String × Str)
  | [], _ => []
  | p :: a, name => if p.1 = name then delAttr a name else p :: delAttr a name

/-- `elem.get(name)`. -/
def XML.getA (x : XML) (name : String) : Option Str := getAttr x.attrs name

mutual
/-- All proper descendants of an element in document (preorder) order:
the node set `elem.findall(".//*")` traverses. -/
def descendants : XML → List XML
  | .elem _ _ _ cs => descList cs
/-- Preorder traversal of a forest. -/
def descList : List XML → List XML
  | [] => []
  | c :: cs => c :: descendants c ++ descList cs
end

/-- Tag test used by the tree queries. -/
def tagIs (t : String) (d : XML) : Bool := d.tag == t

/-- `elem.findall(f".//{t}")`: all descendants with the tag, in document
order. -/
def findAllTag (t : String) (x : XML) : List XML :=
  (descendants x).filter (tagIs t)

/-- `elem.find(f"{t}")`: first direct child with the tag. -/
def findChildTag (t : String) (x : XML) : Option XML :=
  x.children.find? (tagIs t)

/-- `elem.find(f".//{t}")`: first descendant with the tag, in document
order. -/
def findDescTag (t : String) (x : XML) : Option XML :=
  (descendants x).find? (tagIs t)

/-- The style record `get_paragraph_style` returns: a font size in
hundredths of a point (the `'font_size'` key of the returned dict). -/
structure StyleSpec where
  font_size : ℤ
deriving DecidableEq

/-- The value stored for a parsed `sz` attribute:
`point_to_size(size_to_point(sz))`. -/
def styleFromSz (v : ℤ) : StyleSpec := ⟨point_to_size (size_to_point v)⟩

/-- The parsed `sz` attribute of a run's direct `rPr` child, `none` when the
run has no direct `rPr`, the `rPr` has no `sz`, or parsing fails. -/
def rPrSz (r : XML) : Option ℤ :=
  (findChildTag "a:rPr" r).bind (fun rPr => (rPr.getA "sz").bind pyInt)

/-- Step 1 of `get_paragraph_style`: scan the paragraph's runs in document
order; the first one with a parseable explicit size wins. -/
def firstRunFontSize (p : XML) : Option ℤ :=
  (findAllTag "a:r" p).findSome? rPrSz

/-- Step 2 of `get_paragraph_style`: the paragraph's `pPr/defRPr` size. -/
def defRPrSize (p : XML) : Option ℤ :=
  (findChildTag "a:pPr" p).bind (fun pPr =>
    (findChildTag "a:defRPr" pPr).bind (fun d => (d.getA "sz").bind pyInt))

/-- Step 3 of `get_paragraph_style`: the `endParaRPr` size. -/
def endParaRPrSize (p : XML) : Option ℤ :=
  (findChildTag "a:endParaRPr" p).bind (fun e => (e.getA "sz").bind pyInt)

/-- Step 4 of `get_paragraph_style`: the default — the first ladder entry
`≤ 14` points (the nominal 18 points shrunk two rungs), or the minimum size
if none exists. -/
def defaultStyle : StyleSpec :=
  match ppt_font_sizes.find? (fun s => decide (s ≤ (14 : ℚ))) with
  | some s => ⟨point_to_size s⟩
  | none => ⟨point_to_size min_font_size⟩

/-- `get_paragraph_style(p_element)`: fall through runs, paragraph default,
end-paragraph marker, then the fixed default. -/
def get_paragraph_style (p : XML) : StyleSpec :=
  match firstRunFontSize p with
  | some v => styleFromSz v
  | none =>
    match defRPrSize p with
    | some v => styleFromSz v
    | none =>
      match endParaRPrSize p with
      | some v => styleFromSz v
      | none => defaultStyle

/-- A test paragraph: one run declaring `sz="1800"`, a paragraph default of
`sz="1200"`. -/
def exampleP7 : XML :=
  .elem "a:p" [] none
    [ .elem "a:pPr" [] none [.elem "a:defRPr" [("sz", "1200".toList)] none []],
      .elem "a:r" [] none
        [ .elem "a:rPr" [("sz", "1800".toList)] none [],
          .elem "a:t" [] (some "Hi".toList) [] ] ]

/-- A test paragraph with no font size declared anywhere. -/
def exampleP8 : XML :=
  .elem "a:p" [] none
    [ .elem "a:r" [] none [.elem "a:t" [] (some "Hi".toList) []] ]

theorem pyTrunc_intCast (v : ℤ) : pyTrunc ((v : ℚ)) = v := by
  unfold pyTrunc
  split
  · rw [ratFloor_eq, Int.floor_intCast]
  · rw [ratFloor_eq, show (-(v : ℚ)) = (((-v : ℤ)) : ℚ) by push_cast; ring,
      Int.floor_intCast]
    ring

theorem size_point_roundtrip (v : ℤ) : point_to_size (size_to_point v) = v := by
  unfold point_to_size size_to_point
  rw [qMul_eq, Rat.divInt_eq_div]
  have h : ((v : ℚ) / ((100 : ℤ) : ℚ) * 100 : ℚ) = ((v : ℚ)) := by
    push_cast
    field_simp
  rw [h]
  exact pyTrunc_intCast v

theorem styleFromSz_eq (v : ℤ) : styleFromSz v = ⟨v⟩ := by
  unfold styleFromSz
  rw [size_point_roundtrip]

/-- C7: when the first run (in document order) carrying a parseable explicit
font size declares `sz = 1800`, `get_paragraph_style` returns 1800 even
though the paragraph's own `pPr/defRPr` declares 1200: the run wins over the
paragraph default. -/
theorem get_paragraph_style_run_precedence (p : XML)
    (hrun : firstRunFontSize p = some 1800)
    (hdef : defRPrSize p = some 1200) :
    get_paragraph_style p = ⟨1800⟩ := by
  unfold get_paragraph_style
  rw [hrun]
  exact styleFromSz_eq 1800

/-- C7 witness: a concrete paragraph whose run declares 1800 while its
`pPr/defRPr` declares 1200 resolves to 1800. -/
theorem get_paragraph_style_run_precedence_witness :
    firstRunFontSize exampleP7 = some 1800
    ∧ defRPrSize exampleP7 = some 1200
    ∧ get_paragraph_style exampleP7 = ⟨1800⟩ :=
  ⟨by decide, by decide,
    get_paragraph_style_run_precedence exampleP7 (by decide) (by decide)⟩

/-- C8: when no parseable size exists in any run's `rPr`, in `pPr/defRPr`,
or in `endParaRPr`, `get_paragraph_style` still returns a style: the default
18 points lowered two ladder rungs, i.e. 1400 (14 pt). -/
theorem get_paragraph_style_default (p : XML)
    (h1 : firstRunFontSize p = none) (h2 : defRPrSize p = none)
    (h3 : endParaRPrSize p = none) :
    get_paragraph_style p = ⟨1400⟩ := by
  unfold get_paragraph_style
  rw [h1, h2, h3]
  decide

/-- C8 witness: a paragraph with a run but no size anywhere resolves to
1400. -/
theorem get_paragraph_style_default_witness :
    firstRunFontSize exampleP8 = none
    ∧ defRPrSize exampleP8 = none
    ∧ endParaRPrSize exampleP8 = none
    ∧ get_paragraph_style exampleP8 = ⟨1400⟩ :=
  ⟨by decide, by decide, by decide,
    get_paragraph_style_default exampleP8 (by decide) (by decide) (by decide)⟩

/-- The text a run contributes: the text of its first `a:t` descendant
(`r.find(".//a:t")`); runs whose `a:t` is missing or has no text contribute
nothing. -/
def runText (r : XML) : Str :=
  match findDescTag "a:t" r with
  | some t => t.body.getD []
  | none => []

/-- `paragraph_text`: the concatenated run texts of one paragraph. -/
def paragraphText (p : XML) : Str :=
  (findAllTag "a:r" p).foldl (fun acc r => acc ++ runText r) []

/-- One `shape_text` accumulation step over a paragraph text: skip
paragraphs that strip to nothing, otherwise join with a line break. -/
def joinStep (acc : Str) (pt0 : Str) : Str :=
  if pyStrip pt0 = [] then acc
  else if acc = [] then pyStrip pt0
  else acc ++ '\n' :: pyStrip pt0

/-- The `shape_text` fold over the shape's paragraphs. -/
def shapeTextStep (acc : Str) (p : XML) : Str := joinStep acc (paragraphText p)

/-- `shape_text` for one shape. -/
def shapeText (shape : XML) : Str :=
  (findAllTag "a:p" shape).foldl shapeTextStep []

/-- `first_paragraph`: the first paragraph whose text strips nonempty. -/
def firstTextParagraph (shape : XML) : Option XML :=
  (findAllTag "a:p" shape).find? (fun p => !(pyStrip (paragraphText p)).isEmpty)

/-- A text block of `find_text_elements`.  The source dict also carries the
shape reference (used only to locate the insertion point later) and a style
dict (never read by any downstream consumer); both are omitted from the
model. -/
structure TextBlock where
  paragraph : Option XML
  text : Str

/-- The block (if any) one shape contributes. -/
def shapeBlock (shape : XML) : Option TextBlock :=
  if pyStrip (shapeText shape) = [] then none
  else some ⟨firstTextParagraph shape, pyStrip (shapeText shape)⟩

/-- `find_text_elements(root)`: one block per shape with nonempty text, in
document order. -/
def find_text_elements (root : XML) : List TextBlock :=
  (findAllTag "p:sp" root).filterMap shapeBlock

/-- Join pieces with a line break (used to state extraction properties). -/
def joinLines : List Str → Str
  | [] => []
  | [x] => x
  | x :: xs => x ++ '\n' :: joinLines xs

/-- Test constructor: a run with one `a:t` child holding the given text. -/
def mkRun (s : String) : XML :=
  .elem "a:r" [] none [.elem "a:t" [] (some s.toList) []]

/-- Test constructor: a paragraph with one run. -/
def mkPara (s : String) : XML := .elem "a:p" [] none [mkRun s]

/-- Test constructor: a shape whose text body holds one paragraph per
string. -/
def mkShape (ts : List String) : XML :=
  .elem "p:sp" [] none [.elem "a:txBody" [] none (ts.map mkPara)]

/-- Test constructor: a slide root. -/
def mkSlide (shapes : List XML) : XML := .elem "p:sld" [] none shapes

theorem dropWhile_head_false (p : Char → Bool) :
    ∀ (l : Str) (c : Char) (t : Str), l.dropWhile p = c :: t → p c = false := by
  intro l
  induction l with
  | nil => intro c t h; simp [List.dropWhile] at h
  | cons a l ih =>
    intro c t h
    rw [List.dropWhile_cons] at h
    by_cases hp : p a
    · rw [if_pos hp] at h
      exact ih c t h
    · rw [if_neg hp] at h
      cases h
      simpa using hp

theorem rstrip_prefix (s : Str) : List.IsPrefix (rstrip s) s := by
  have h := (List.dropWhile_suffix (l := s.reverse) isPySpace)
  have h2 := List.reverse_prefix.mpr h
  rwa [List.reverse_reverse] at h2

theorem pyStrip_reverse (s : Str) :
    (pyStrip s).reverse = ((lstrip s).reverse).dropWhile isPySpace := by
  simp [pyStrip, rstrip]

theorem pyStrip_head_false (s : Str) (c : Char) (t : Str) (h : pyStrip s = c :: t) :
    isPySpace c = false := by
  have hpre : List.IsPrefix (pyStrip s) (lstrip s) := rstrip_prefix (lstrip s)
  rw [h] at hpre
  rcases hpre with ⟨u, hu⟩
  have hls : lstrip s = c :: (t ++ u) := by rw [← hu]; simp
  exact dropWhile_head_false isPySpace s c (t ++ u) hls

theorem pyStrip_last_false (s : Str) (c : Char) (t : Str)
    (h : (pyStrip s).reverse = c :: t) : isPySpace c = false := by
  rw [pyStrip_reverse] at h
  exact dropWhile_head_false isPySpace (lstrip s).reverse c t h

theorem pyStrip_eq_self (s : Str)
    (hh : ∀ c t, s = c :: t → isPySpace c = false)
    (hl : ∀ c t, s.reverse = c :: t → isPySpace c = false) :
    pyStrip s = s := by
  cases hs : s with
  | nil => rfl
  | cons a s0 =>
    have h1 : lstrip (a :: s0) = a :: s0 := by
      rw [lstrip, List.dropWhile_cons, hh a s0 hs]
      simp
    rw [pyStrip, h1, rstrip]
    cases hr : (a :: s0).reverse with
    | nil => simp at hr
    | cons b r0 =>
      rw [List.dropWhile_cons, hl b r0 (by rw [hs]; exact hr)]
      simp only [Bool.false_eq_true, if_false]
      rw [← hr, List.reverse_reverse]

theorem pyStrip_idem (s : Str) : pyStrip (pyStrip s) = pyStrip s := by
  apply pyStrip_eq_self
  · intro c t h
    exact pyStrip_head_false s c t h
  · intro c t h
    exact pyStrip_last_false s c t h

theorem pyStrip_join_append (p q : Str) (hp : pyStrip p = p) (hq : pyStrip q = q)
    (hp0 : p ≠ []) (hq0 : q ≠ []) :
    pyStrip (p ++ '\n' :: q) = p ++ '\n' :: q := by
  apply pyStrip_eq_self
  · intro c t h
    cases hp' : p with
    | nil => exact absurd hp' hp0
    | cons a p0 =>
      rw [hp', List.cons_append] at h
      have hac : a = c := by
        injection h
      subst hac
      exact pyStrip_head_false p a p0 (by rw [hp]; exact hp')
  · intro c t h
    cases hq' : q.reverse with
    | nil =>
      exact absurd (List.reverse_eq_nil_iff.mp hq') hq0
    | cons b q0 =>
      rw [List.reverse_append, List.reverse_cons, hq'] at h
      have hbc : b = c := by
        rw [List.cons_append, List.cons_append] at h
        injection h
      subst hbc
      exact pyStrip_last_false q b q0 (by rw [hq]; exact hq')

theorem joinLines_stripped :
    ∀ (L : List Str), (∀ x ∈ L, pyStrip x = x ∧ x ≠ []) → L ≠ [] →
      pyStrip (joinLines L) = joinLines L ∧ joinLines L ≠ [] := by
  intro L
  induction L with
  | nil => intro _ h; exact absurd rfl h
  | cons x xs ih =>
    intro hall _
    cases xs with
    | nil =>
      exact hall x (List.mem_cons_self _ _)
    | cons y t =>
      have hx := hall x (List.mem_cons_self _ _)
      have hrest := ih (fun z hz => hall z (List.mem_cons_of_mem _ hz)) (by simp)
      refine ⟨?_, ?_⟩
      · exact pyStrip_join_append x (joinLines (y :: t)) hx.1 hrest.1 hx.2 hrest.2
      · simp [joinLines, hx.2]

theorem paragraphText_mkPara (s : String) : paragraphText (mkPara s) = s.toList := by
  rfl

theorem descList_mkPara_cons (t : String) (rest : List XML) :
    descList (mkPara t :: rest)
      = mkPara t :: mkRun t :: XML.elem "a:t" [] (some t.toList) []
        :: descList rest := by
  simp [descList, descendants, mkPara, mkRun]

theorem descList_mkPara_filter_p (ts : List String) :
    (descList (ts.map mkPara)).filter (tagIs "a:p") = ts.map mkPara := by
  induction ts with
  | nil => rfl
  | cons t ts ih =>
    rw [List.map_cons, descList_mkPara_cons, List.filter_cons, List.filter_cons,
      List.filter_cons]
    rw [show tagIs "a:p" (mkPara t) = true from rfl,
      show tagIs "a:p" (mkRun t) = false from rfl,
      show tagIs "a:p" (XML.elem "a:t" [] (some t.toList) []) = false from rfl]
    simp only [if_true, Bool.false_eq_true, if_false, ih]

theorem descList_mkPara_filter_sp (ts : List String) :
    (descList (ts.map mkPara)).filter (tagIs "p:sp") = [] := by
  induction ts with
  | nil => rfl
  | cons t ts ih =>
    rw [List.map_cons, descList_mkPara_cons, List.filter_cons, List.filter_cons,
      List.filter_cons]
    rw [show tagIs "p:sp" (mkPara t) = false from rfl,
      show tagIs "p:sp" (mkRun t) = false from rfl,
      show tagIs "p:sp" (XML.elem "a:t" [] (some t.toList) []) = false from rfl]
    simp only [Bool.false_eq_true, if_false, ih]

theorem findAllTag_p_mkShape (ts : List String) :
    findAllTag "a:p" (mkShape ts) = ts.map mkPara := by
  unfold findAllTag
  show (descList [XML.elem "a:txBody" [] none (ts.map mkPara)]).filter (tagIs "a:p")
      = ts.map mkPara
  simp only [descList, descendants, List.append_nil]
  rw [List.filter_cons,
    show tagIs "a:p" (XML.elem "a:txBody" [] none (ts.map mkPara)) = false from rfl]
  simp only [Bool.false_eq_true, if_false]
  exact descList_mkPara_filter_p ts

theorem descendants_mkShape_filter_sp (ts : List String) :
    (descendants (mkShape ts)).filter (tagIs "p:sp") = [] := by
  show (descList [XML.elem "a:txBody" [] none (ts.map mkPara)]).filter (tagIs "p:sp") = []
  simp only [descList, descendants, List.append_nil]
  rw [List.filter_cons,
    show tagIs "p:sp" (XML.elem "a:txBody" [] none (ts.map mkPara)) = false from rfl]
  simp only [Bool.false_eq_true, if_false]
  exact descList_mkPara_filter_sp ts

theorem findAllTag_sp_mkSlide (ts : List String) :
    findAllTag "p:sp" (mkSlide [mkShape ts]) = [mkShape ts] := by
  unfold findAllTag
  show (descList [mkShape ts]).filter (tagIs "p:sp") = [mkShape ts]
  simp only [descList, List.append_nil]
  rw [List.filter_cons, show tagIs "p:sp" (mkShape ts) = true from rfl]
  simp only [if_true]
  rw [descendants_mkShape_filter_sp ts]

theorem joinStep_foldl (xs : List Str) :
    ∀ acc : Str,
      xs.foldl joinStep acc
        = (if acc = [] then joinLines ((xs.map pyStrip).filter (fun l => l ≠ []))
           else if ((xs.map pyStrip).filter (fun l => l ≠ [])) = [] then acc
           else acc ++ '\n' :: joinLines ((xs.map pyStrip).filter (fun l => l ≠ []))) := by
  induction xs with
  | nil =>
    intro acc
    by_cases h : acc = [] <;> simp [joinLines, h]
  | cons x xs ih =>
    intro acc
    rw [List.foldl_cons]
    by_cases hx : pyStrip x = []
    · rw [List.map_cons, List.filter_cons]
      have hstep : joinStep acc x = acc := by
        simp [joinStep, hx]
      rw [hstep, ih acc]
      simp [hx]
    · rw [List.map_cons, List.filter_cons]
      have hfil : (decide (pyStrip x ≠ [])) = true := by simpa using hx
      rw [hfil]
      simp only [if_true]
      by_cases hacc : acc = []
      · have hstep : joinStep acc x = pyStrip x := by
          simp [joinStep, hx, hacc]
        rw [hstep, ih (pyStrip x), if_pos hacc, if_neg hx]
        cases hF : (xs.map pyStrip).filter (fun l => l ≠ []) with
        | nil => simp [joinLines]
        | cons z zs => simp [joinLines]
      · have hstep : joinStep acc x = acc ++ '\n' :: pyStrip x := by
          simp [joinStep, hx, hacc]
        have hne : acc ++ '\n' :: pyStrip x ≠ [] := by simp
        rw [hstep, ih (acc ++ '\n' :: pyStrip x), if_neg hne, if_neg hacc]
        have hcons : (pyStrip x :: (xs.map pyStrip).filter (fun l => l ≠ [])) ≠ [] := by
          simp
        rw [if_neg hcons]
        cases hF : (xs.map pyStrip).filter (fun l => l ≠ []) with
        | nil => simp [joinLines]
        | cons z zs => simp [joinLines]

theorem shapeText_mkShape (ts : List String) :
    shapeText (mkShape ts)
      = joinLines (((ts.map String.toList).map pyStrip).filter (fun l => l ≠ [])) := by
  unfold shapeText
  rw [findAllTag_p_mkShape, List.foldl_map]
  have h : ∀ (acc : Str) (t : String),
      shapeTextStep acc (mkPara t) = joinStep acc t.toList := by
    intro acc t
    rw [shapeTextStep, paragraphText_mkPara]
  calc (ts.foldl (fun acc t => shapeTextStep acc (mkPara t)) [])
      = ts.foldl (fun acc t => joinStep acc t.toList) [] := by
        apply List.foldl_ext
        intro acc t _
        exact h acc t
    _ = (ts.map String.toList).foldl joinStep [] := by rw [List.foldl_map]
    _ = _ := by rw [joinStep_foldl]; simp

/-- C9: extracting a single-shape slide built from the given paragraph texts
yields exactly one block — whose text is the nonempty stripped paragraph
texts joined with a single line break, in document order — when some
paragraph has nonempty text, and no block at all when every paragraph is
empty or whitespace-only.  (E.g. paragraphs `["Hello", "", "World"]` give
one block `"Hello\nWorld"`.) -/
theorem find_text_elements_spec (ts : List String) :
    (find_text_elements (mkSlide [mkShape ts])).map (fun b => b.text)
      = (if ((ts.map (fun s => pyStrip s.toList)).filter (fun l => l ≠ [])) = [] then []
         else [joinLines ((ts.map (fun s => pyStrip s.toList)).filter (fun l => l ≠ []))]) := by
  have hmap : ((ts.map String.toList).map pyStrip) = ts.map (fun s => pyStrip s.toList) := by
    rw [List.map_map]
    rfl
  unfold find_text_elements
  rw [findAllTag_sp_mkSlide]
  simp only [List.filterMap]
  unfold shapeBlock
  rw [shapeText_mkShape, hmap]
  cases hF : (ts.map (fun s => pyStrip s.toList)).filter (fun l => l ≠ []) with
  | nil =>
    rfl
  | cons z zs =>
    have hall : ∀ x ∈ z :: zs, pyStrip x = x ∧ x ≠ [] := by
      intro x hx
      rw [← hF] at hx
      rcases List.mem_filter.mp hx with ⟨hmem, hne⟩
      rcases List.mem_map.mp hmem with ⟨s, _, rfl⟩
      exact ⟨pyStrip_idem s.toList, by simpa using hne⟩
    have hj := joinLines_stripped (z :: zs) hall (by simp)
    rw [hj.1, if_neg hj.2]
    simp

/-- Apply a function to an element's attribute map. -/
def XML.mapAttrs (f : List (String × Str) → List (String × Str)) : XML → XML
  | .elem t a tx cs => .elem t (f a) tx cs

/-- Rewrite the first list element satisfying `p` (models mutating the node
an ElementTree `find` returned). -/
def updateFirst (p : XML → Bool) (f : XML → XML) : List XML → List XML
  | [] => []
  | c :: cs => if p c then f c :: cs else c :: updateFirst p f cs

/-- Rewrite the first direct child with the given tag (no-op when absent,
matching the source's `if ... is not None` guards). -/
def updateChildTag (t : String) (f : XML → XML) : XML → XML
  | .elem tg a tx cs => .elem tg a tx (updateFirst (tagIs t) f cs)

mutual
/-- Rewrite the first descendant (preorder, self excluded) satisfying `p`
(models mutating the node `elem.find(".//...")` returned; no-op when
absent). -/
def updateFirstDesc (p : XML → Bool) (f : XML → XML) : XML → XML
  | .elem t a tx cs => .elem t a tx (updateFirstDescList p f cs)
/-- List part of `updateFirstDesc`. -/
def updateFirstDescList (p : XML → Bool) (f : XML → XML) : List XML → List XML
  | [] => []
  | c :: cs =>
    if p c then f c :: cs
    else if (descendants c).any p then updateFirstDesc p f c :: cs
    else c :: updateFirstDescList p f cs
end

/-- The `bodyPr` rewrite of `_set_shape_auto_fit`: drop the existing
auto-fit markers, delete the `w`/`h` overrides, set the wrap/anchor flags,
append an `spAutoFit` marker. -/
def rewriteBodyPr : XML → XML
  | .elem t a tx cs =>
    let cs1 := cs.filter (fun c =>
      !(tagIs "a:noAutofit" c || tagIs "a:normAutofit" c || tagIs "a:spAutoFit" c))
    let a1 := delAttr (delAttr a "w") "h"
    let a2 := setAttr (setAttr (setAttr (setAttr a1 "wrap" "square".toList)
      "rtlCol" "0".toList) "anchor" "ctr".toList) "anchorCtr" "1".toList
    .elem t a2 tx (cs1 ++ [.elem "a:spAutoFit" [] none []])

/-- The `txBody` rewrite: reuse the direct `bodyPr` child when present, else
create one at the end (`SubElement` appends), then rewrite it. -/
def rewriteTxBody (tb : XML) : XML :=
  match findChildTag "a:bodyPr" tb with
  | some _ => updateChildTag "a:bodyPr" rewriteBodyPr tb
  | none =>
    match tb with
    | .elem t a tx cs => .elem t a tx (cs ++ [rewriteBodyPr (.elem "a:bodyPr" [] none [])])

/-- `if saved: xfrm.set(name, saved)` — re-assert a saved attribute value
when it is nonempty (an absent attribute was read as `''`). -/
def reassert (a : List (String × Str)) (name : String) (v : Str) :
    List (String × Str) :=
  if v ≠ [] then setAttr a name v else a

/-- The `spPr/xfrm` attribute rewrite for a simple shape: save `off`/`ext`,
delete `cx`/`cy`, re-assert the saved values when nonempty. -/
def stripShapeXfrmAttrs (a : List (String × Str)) : List (String × Str) :=
  let origOff := (getAttr a "off").getD []
  let origExt := (getAttr a "ext").getD []
  let a1 := delAttr (delAttr a "cx") "cy"
  reassert (reassert a1 "off" origOff) "ext" origExt

/-- `_set_shape_auto_fit(sp)`: rewrite the first `.//a:txBody` descendant,
then strip the size override on the first `.//p:spPr` descendant's direct
`a:xfrm` child. -/
def set_shape_auto_fit (sp : XML) : XML :=
  let sp1 := updateFirstDesc (tagIs "a:txBody") rewriteTxBody sp
  updateFirstDesc (tagIs "p:spPr")
    (updateChildTag "a:xfrm" (XML.mapAttrs stripShapeXfrmAttrs)) sp1

/-- The `grpSpPr/xfrm` attribute rewrite of `set_auto_fit` for one group
shape: save `off`/`ext`/`chOff`/`chExt`, delete `cx`/`cy`, re-assert the
saved values when present and nonempty (an absent attribute reads as `''`
and is not re-asserted, leaving it absent). -/
def stripGroupXfrmAttrs (a : List (String × Str)) : List (String × Str) :=
  let origOff := (getAttr a "off").getD []
  let origExt := (getAttr a "ext").getD []
  let origChOff := (getAttr a "chOff").getD []
  let origChExt := (getAttr a "chExt").getD []
  let a1 := delAttr (delAttr a "cx") "cy"
  reassert (reassert (reassert (reassert a1 "off" origOff) "ext" origExt)
    "chOff" origChOff) "chExt" origChExt

/-- The per-group rewrite of `set_auto_fit`: fix the direct
`p:grpSpPr`'s direct `a:xfrm` child (no-op when either is absent). -/
def fixGrpSp (g : XML) : XML :=
  updateChildTag "p:grpSpPr"
    (updateChildTag "a:xfrm" (XML.mapAttrs stripGroupXfrmAttrs)) g

mutual
/-- Functional form of `set_auto_fit`/`process_shapes`: children first, then
the per-tag rewrite.  The source instead walks all `.//p:sp` and
`.//p:grpSp` descendants and re-processes the members of every group when
recursing into it; both per-node rewrites are idempotent and touch only the
node's own `txBody`/`spPr`/`grpSpPr` parts, so the repeated passes produce
the same tree as this single bottom-up pass on schema-shaped slides (shape
bodies hold no nested shapes). -/
def set_auto_fit : XML → XML
  | .elem t a tx cs =>
    let x := XML.elem t a tx (setAutoFitList cs)
    if t = "p:sp" then set_shape_auto_fit x
    else if t = "p:grpSp" then fixGrpSp x
    else x
/-- List part of `set_auto_fit`. -/
def setAutoFitList : List XML → List XML
  | [] => []
  | c :: cs => set_auto_fit c :: setAutoFitList cs
end

mutual
/-- No `p:grpSp` element anywhere in the subtree (the element included). -/
def grpFree : XML → Bool
  | .elem t _ _ cs => !(t == "p:grpSp") && grpFreeList cs
/-- List part of `grpFree`. -/
def grpFreeList : List XML → Bool
  | [] => true
  | c :: cs => grpFree c && grpFreeList cs
end

mutual
/-- Schema-shaped slides: no group shape nested inside a simple shape's
subtree (`p:sp` bodies are group-free). -/
def spGrpFree : XML → Bool
  | .elem t _ _ cs => if t == "p:sp" then grpFreeList cs else spGrpFreeList cs
/-- List part of `spGrpFree`. -/
def spGrpFreeList : List XML → Bool
  | [] => true
  | c :: cs => spGrpFree c && spGrpFreeList cs
end

/-- The attribute map of a group's `grpSpPr/xfrm` transform, read off the
group's child list. -/
def grpXfrmOfChildren (cs : List XML) : Option (List (String × Str)) :=
  (cs.find? (tagIs "p:grpSpPr")).bind
    (fun pr => (findChildTag "a:xfrm" pr).map XML.attrs)

mutual
/-- The `grpSpPr/xfrm` attribute maps of every `p:grpSp` element in the
subtree (element included), in document order; `none` records a group
without a `grpSpPr/xfrm`. -/
def grpXfrms : XML → List (Option (List (String × Str)))
  | .elem t _ _ cs =>
    (if t = "p:grpSp" then [grpXfrmOfChildren cs] else []) ++ grpXfrmsList cs
/-- List part of `grpXfrms`. -/
def grpXfrmsList : List XML → List (Option (List (String × Str)))
  | [] => []
  | c :: cs => grpXfrms c ++ grpXfrmsList cs
end

theorem getAttr_delAttr_self (a : List (String × Str)) (n : String) :
    getAttr (delAttr a n) n = none := by
  induction a with
  | nil => rfl
  | cons p a ih =>
    by_cases h : p.1 = n
    · rw [delAttr, if_pos h]
      exact ih
    · rw [delAttr, if_neg h, getAttr, if_neg h]
      exact ih

theorem getAttr_delAttr_ne (a : List (String × Str)) (n m : String) (h : n ≠ m) :
    getAttr (delAttr a m) n = getAttr a n := by
  induction a with
  | nil => rfl
  | cons p a ih =>
    by_cases hp : p.1 = m
    · rw [delAttr, if_pos hp, getAttr,
        if_neg (show ¬ p.1 = n from fun hq => h (by rw [← hq, hp]))]
      exact ih
    · rw [delAttr, if_neg hp, getAttr, getAttr]
      by_cases hn : p.1 = n
      · rw [if_pos hn, if_pos hn]
      · rw [if_neg hn, if_neg hn]
        exact ih

theorem getAttr_setAttr_self (a : List (String × Str)) (n : String) (v : Str) :
    getAttr (setAttr a n v) n = some v := by
  induction a with
  | nil => simp [setAttr, getAttr]
  | cons p a ih =>
    by_cases hp : p.1 = n
    · rw [setAttr, if_pos hp, getAttr, if_pos rfl]
    · rw [setAttr, if_neg hp, getAttr, if_neg hp]
      exact ih

theorem getAttr_setAttr_ne (a : List (String × Str)) (n m : String) (v : Str)
    (h : n ≠ m) : getAttr (setAttr a m v) n = getAttr a n := by
  induction a with
  | nil =>
    have hmn : m ≠ n := fun hq => h hq.symm
    simp [setAttr, getAttr, hmn]
  | cons p a ih =>
    by_cases hp : p.1 = m
    · rw [setAttr, if_pos hp, getAttr, getAttr]
      rw [if_neg (show ¬ ((m, v).1 = n) from fun hq => h hq.symm)]
      by_cases hn : p.1 = n
      · exact absurd (hn ▸ hp : n = m) h
      · rw [if_neg hn]
    · rw [setAttr, if_neg hp, getAttr, getAttr]
      by_cases hn : p.1 = n
      · rw [if_pos hn, if_pos hn]
      · rw [if_neg hn, if_neg hn]
        exact ih

theorem getAttr_reassert_ne (a : List (String × Str)) (n m : String) (v : Str)
    (h : n ≠ m) : getAttr (reassert a m v) n = getAttr a n := by
  unfold reassert
  split
  · exact getAttr_setAttr_ne a n m v h
  · rfl

theorem getAttr_reassert_getD (a b : List (String × Str)) (n : String)
    (heq : getAttr a n = getAttr b n) :
    getAttr (reassert a n ((getAttr b n).getD [])) n = getAttr b n := by
  unfold reassert
  cases hb : getAttr b n with
  | none =>
    rw [hb] at heq
    simp only [Option.getD_none]
    rw [if_neg (by simp)]
    exact heq
  | some v =>
    rw [hb] at heq
    simp only [Option.getD_some]
    by_cases hv : v = []
    · rw [if_neg (by simp [hv])]
      exact heq
    · rw [if_pos (by simpa using hv)]
      exact getAttr_setAttr_self a n v

theorem stripGroupXfrmAttrs_getAttr (a : List (String × Str)) :
    getAttr (stripGroupXfrmAttrs a) "cx" = none
    ∧ getAttr (stripGroupXfrmAttrs a) "cy" = none
    ∧ getAttr (stripGroupXfrmAttrs a) "off" = getAttr a "off"
    ∧ getAttr (stripGroupXfrmAttrs a) "ext" = getAttr a "ext"
    ∧ getAttr (stripGroupXfrmAttrs a) "chOff" = getAttr a "chOff"
    ∧ getAttr (stripGroupXfrmAttrs a) "chExt" = getAttr a "chExt" := by
  unfold stripGroupXfrmAttrs
  refine ⟨?_, ?_, ?_, ?_, ?_, ?_⟩
  · rw [getAttr_reassert_ne _ _ _ _ (by decide), getAttr_reassert_ne _ _ _ _ (by decide),
      getAttr_reassert_ne _ _ _ _ (by decide), getAttr_reassert_ne _ _ _ _ (by decide),
      getAttr_delAttr_ne _ _ _ (by decide), getAttr_delAttr_self]
  · rw [getAttr_reassert_ne _ _ _ _ (by decide), getAttr_reassert_ne _ _ _ _ (by decide),
      getAttr_reassert_ne _ _ _ _ (by decide), getAttr_reassert_ne _ _ _ _ (by decide),
      getAttr_delAttr_self]
  · rw [getAttr_reassert_ne _ _ _ _ (by decide), getAttr_reassert_ne _ _ _ _ (by decide),
      getAttr_reassert_ne _ _ _ _ (by decide)]
    apply getAttr_reassert_getD
    rw [getAttr_delAttr_ne _ _ _ (by decide), getAttr_delAttr_ne _ _ _ (by decide)]
  · rw [getAttr_reassert_ne _ _ _ _ (by decide), getAttr_reassert_ne _ _ _ _ (by decide)]
    apply getAttr_reassert_getD
    rw [getAttr_reassert_ne _ _ _ _ (by decide),
      getAttr_delAttr_ne _ _ _ (by decide), getAttr_delAttr_ne _ _ _ (by decide)]
  · rw [getAttr_reassert_ne _ _ _ _ (by decide)]
    apply getAttr_reassert_getD
    rw [getAttr_reassert_ne _ _ _ _ (by decide), getAttr_reassert_ne _ _ _ _ (by decide),
      getAttr_delAttr_ne _ _ _ (by decide), getAttr_delAttr_ne _ _ _ (by decide)]
  · apply getAttr_reassert_getD
    rw [getAttr_reassert_ne _ _ _ _ (by decide), getAttr_reassert_ne _ _ _ _ (by decide),
      getAttr_reassert_ne _ _ _ _ (by decide),
      getAttr_delAttr_ne _ _ _ (by decide), getAttr_delAttr_ne _ _ _ (by decide)]

theorem setAutoFitList_eq_map (cs : List XML) :
    setAutoFitList cs = cs.map set_auto_fit := by
  induction cs with
  | nil => rfl
  | cons c cs ih => rw [setAutoFitList, List.map_cons, ih]

theorem updateFirstDesc_parts (p : XML → Bool) (f : XML → XML) (x : XML) :
    (updateFirstDesc p f x).tag = x.tag ∧ (updateFirstDesc p f x).attrs = x.attrs := by
  cases x
  exact ⟨rfl, rfl⟩

theorem updateChildTag_parts (t : String) (f : XML → XML) (x : XML) :
    (updateChildTag t f x).tag = x.tag ∧ (updateChildTag t f x).attrs = x.attrs := by
  cases x
  exact ⟨rfl, rfl⟩

theorem mapAttrs_tag (f : List (String × Str) → List (String × Str)) (x : XML) :
    (XML.mapAttrs f x).tag = x.tag := by
  cases x
  rfl

theorem set_shape_auto_fit_parts (x : XML) :
    (set_shape_auto_fit x).tag = x.tag ∧ (set_shape_auto_fit x).attrs = x.attrs := by
  unfold set_shape_auto_fit
  refine ⟨?_, ?_⟩
  · rw [(updateFirstDesc_parts _ _ _).1, (updateFirstDesc_parts _ _ _).1]
  · rw [(updateFirstDesc_parts _ _ _).2, (updateFirstDesc_parts _ _ _).2]

theorem set_auto_fit_parts (x : XML) :
    (set_auto_fit x).tag = x.tag ∧ (set_auto_fit x).attrs = x.attrs := by
  cases x with
  | elem t a tx cs =>
    rw [set_auto_fit]
    split
    · refine ⟨?_, ?_⟩
      · rw [(set_shape_auto_fit_parts _).1]; rfl
      · rw [(set_shape_auto_fit_parts _).2]; rfl
    · split
      · unfold fixGrpSp
        refine ⟨?_, ?_⟩
        · rw [(updateChildTag_parts _ _ _).1]; rfl
        · rw [(updateChildTag_parts _ _ _).2]; rfl
      · exact ⟨rfl, rfl⟩

theorem bAnd_mp {a b : Bool} (h : (a && b) = true) : a = true ∧ b = true := by
  simp_all

theorem bAnd_mpr {a b : Bool} (h1 : a = true) (h2 : b = true) : (a && b) = true := by
  simp_all

theorem grpFreeList_iff (cs : List XML) :
    grpFreeList cs = true ↔ ∀ c ∈ cs, grpFree c = true := by
  induction cs with
  | nil => simp [grpFreeList]
  | cons c cs ih =>
    rw [grpFreeList, Bool.and_eq_true, ih]
    simp

mutual
theorem grpFree_grpXfrms : ∀ x : XML, grpFree x = true → grpXfrms x = []
  | .elem t a tx cs, h => by
    rw [grpFree] at h
    rcases bAnd_mp h with ⟨ht, hcs⟩
    have ht' : ¬ (t = "p:grpSp") := by simpa using ht
    rw [grpXfrms, if_neg ht', grpFreeList_grpXfrmsList cs hcs]
    rfl
theorem grpFreeList_grpXfrmsList : ∀ cs : List XML,
    grpFreeList cs = true → grpXfrmsList cs = []
  | [], _ => rfl
  | c :: cs, h => by
    rw [grpFreeList, Bool.and_eq_true] at h
    rw [grpXfrmsList, grpFree_grpXfrms c h.1, grpFreeList_grpXfrmsList cs h.2]
    rfl
end

theorem grpFreeList_filter (cs : List XML) (q : XML → Bool)
    (h : grpFreeList cs = true) : grpFreeList (cs.filter q) = true := by
  rw [grpFreeList_iff] at h ⊢
  exact fun c hc => h c (List.mem_of_mem_filter hc)

theorem grpFreeList_append (cs1 cs2 : List XML) (h1 : grpFreeList cs1 = true)
    (h2 : grpFreeList cs2 = true) : grpFreeList (cs1 ++ cs2) = true := by
  rw [grpFreeList_iff] at h1 h2 ⊢
  intro c hc
  rcases List.mem_append.mp hc with h | h
  · exact h1 c h
  · exact h2 c h

theorem grpFree_rewriteBodyPr (x : XML) (h : grpFree x = true) :
    grpFree (rewriteBodyPr x) = true := by
  cases x with
  | elem t a tx cs =>
    rw [rewriteBodyPr]
    rw [grpFree] at h ⊢
    rcases bAnd_mp h with ⟨ht, hcs⟩
    refine bAnd_mpr ht ?_
    exact grpFreeList_append _ _ (grpFreeList_filter _ _ hcs) rfl

theorem grpFree_mapAttrs (f : List (String × Str) → List (String × Str)) (x : XML) :
    grpFree (XML.mapAttrs f x) = grpFree x := by
  cases x
  rfl

theorem grpFreeList_updateFirst (p : XML → Bool) (f : XML → XML) (cs : List XML)
    (hf : ∀ c, grpFree c = true → grpFree (f c) = true)
    (h : grpFreeList cs = true) : grpFreeList (updateFirst p f cs) = true := by
  induction cs with
  | nil => rfl
  | cons c cs ih =>
    rw [grpFreeList, Bool.and_eq_true] at h
    rw [updateFirst]
    split
    · rw [grpFreeList]
      exact bAnd_mpr (hf c h.1) (h.2)
    · rw [grpFreeList]
      exact bAnd_mpr (h.1) (ih h.2)

theorem grpFree_updateChildTag (t : String) (f : XML → XML) (x : XML)
    (hf : ∀ c, grpFree c = true → grpFree (f c) = true)
    (h : grpFree x = true) : grpFree (updateChildTag t f x) = true := by
  cases x with
  | elem tg a tx cs =>
    rw [updateChildTag]
    rw [grpFree] at h ⊢
    rcases bAnd_mp h with ⟨ht, hcs⟩
    exact bAnd_mpr (ht) (grpFreeList_updateFirst _ _ _ hf hcs)

theorem grpFree_rewriteTxBody (tb : XML) (h : grpFree tb = true) :
    grpFree (rewriteTxBody tb) = true := by
  unfold rewriteTxBody
  split
  · exact grpFree_updateChildTag _ _ _ grpFree_rewriteBodyPr h
  · cases tb with
    | elem t a tx cs =>
      show grpFree (XML.elem t a tx
        (cs ++ [rewriteBodyPr (.elem "a:bodyPr" [] none [])])) = true
      rw [grpFree] at h ⊢
      rcases bAnd_mp h with ⟨ht, hcs⟩
      exact bAnd_mpr (ht) (grpFreeList_append _ _ hcs rfl)

mutual
theorem grpFree_updateFirstDesc : ∀ (p : XML → Bool) (f : XML → XML) (x : XML),
    (∀ y, grpFree y = true → grpFree (f y) = true) →
    grpFree x = true → grpFree (updateFirstDesc p f x) = true
  | p, f, .elem t a tx cs, hf, h => by
    rw [updateFirstDesc]
    rw [grpFree] at h ⊢
    rcases bAnd_mp h with ⟨ht, hcs⟩
    exact bAnd_mpr (ht) (grpFree_updateFirstDescList p f cs hf hcs)
theorem grpFree_updateFirstDescList : ∀ (p : XML → Bool) (f : XML → XML)
    (cs : List XML),
    (∀ y, grpFree y = true → grpFree (f y) = true) →
    grpFreeList cs = true → grpFreeList (updateFirstDescList p f cs) = true
  | _, _, [], _, _ => rfl
  | p, f, c :: cs, hf, h => by
    rw [grpFreeList, Bool.and_eq_true] at h
    rw [updateFirstDescList]
    split
    · rw [grpFreeList]
      exact bAnd_mpr (hf c h.1) (h.2)
    · split
      · rw [grpFreeList]
        exact bAnd_mpr (grpFree_updateFirstDesc p f c hf h.1) (h.2)
      · rw [grpFreeList]
        exact bAnd_mpr (h.1) (grpFree_updateFirstDescList p f cs hf h.2)
end

theorem grpFree_set_shape_auto_fit (x : XML) (h : grpFree x = true) :
    grpFree (set_shape_auto_fit x) = true := by
  unfold set_shape_auto_fit
  apply grpFree_updateFirstDesc
  · intro y hy
    apply grpFree_updateChildTag
    · intro c hc
      rwa [grpFree_mapAttrs]
    · exact hy
  · exact grpFree_updateFirstDesc _ _ _ (fun y hy => grpFree_rewriteTxBody y hy) h

mutual
theorem grpFree_set_auto_fit : ∀ x : XML, grpFree x = true →
    grpFree (set_auto_fit x) = true
  | .elem t a tx cs, h => by
    have h' := h
    rw [grpFree, Bool.and_eq_true] at h'
    rcases h' with ⟨ht, hcs⟩
    have hcs' := grpFree_setAutoFitList cs hcs
    rw [set_auto_fit]
    split
    · apply grpFree_set_shape_auto_fit
      rw [grpFree]
      exact bAnd_mpr (ht) (hcs')
    · split
      · rename_i h2
        exact absurd h2 (by simpa using ht)
      · rw [grpFree]
        exact bAnd_mpr (ht) (hcs')
theorem grpFree_setAutoFitList : ∀ cs : List XML, grpFreeList cs = true →
    grpFreeList (setAutoFitList cs) = true
  | [], _ => rfl
  | c :: cs, h => by
    rw [grpFreeList, Bool.and_eq_true] at h
    rw [setAutoFitList, grpFreeList]
    exact bAnd_mpr (grpFree_set_auto_fit c h.1) (grpFree_setAutoFitList cs h.2)
end

theorem grpXfrms_mapAttrs (f : List (String × Str) → List (String × Str)) (x : XML) :
    grpXfrms (XML.mapAttrs f x) = grpXfrms x := by
  cases x
  rfl

theorem attrs_mapAttrs (f : List (String × Str) → List (String × Str)) (x : XML) :
    (XML.mapAttrs f x).attrs = f x.attrs := by
  cases x
  rfl

theorem grpXfrmsList_updateFirst (p : XML → Bool) (f : XML → XML) (cs : List XML)
    (hf : ∀ c ∈ cs, p c = true → grpXfrms (f c) = grpXfrms c) :
    grpXfrmsList (updateFirst p f cs) = grpXfrmsList cs := by
  induction cs with
  | nil => rfl
  | cons c cs ih =>
    rw [updateFirst]
    split
    · rename_i hc
      rw [grpXfrmsList, grpXfrmsList, hf c (List.mem_cons_self _ _) hc]
    · rw [grpXfrmsList, grpXfrmsList,
        ih (fun c hc hpc => hf c (List.mem_cons_of_mem _ hc) hpc)]

theorem grpXfrms_updateChildTag (t : String) (f : XML → XML) (x : XML)
    (ht : ¬ (x.tag = "p:grpSp")) (hf : ∀ z, grpXfrms (f z) = grpXfrms z) :
    grpXfrms (updateChildTag t f x) = grpXfrms x := by
  cases x with
  | elem tg a tx cs =>
    rw [XML.tag] at ht
    rw [updateChildTag, grpXfrms, grpXfrms, if_neg ht, if_neg ht]
    simp only [List.nil_append]
    exact grpXfrmsList_updateFirst _ _ _ (fun c _ _ => hf c)

theorem find?_updateFirst (p : XML → Bool) (f : XML → XML) (cs : List XML)
    (hp : ∀ c, p c = true → p (f c) = true) :
    (updateFirst p f cs).find? p = (cs.find? p).map f := by
  induction cs with
  | nil => rfl
  | cons c cs ih =>
    rw [updateFirst]
    by_cases hc : p c = true
    · rw [if_pos hc, List.find?_cons_of_pos _ (hp c hc), List.find?_cons_of_pos _ hc]
      rfl
    · rw [if_neg hc, List.find?_cons_of_neg _ hc, List.find?_cons_of_neg _ hc]
      exact ih

theorem findChildTag_updateChildTag (t : String) (f : XML → XML) (x : XML)
    (hf : ∀ z, (f z).tag = z.tag) :
    findChildTag t (updateChildTag t f x) = (findChildTag t x).map f := by
  cases x with
  | elem tg a tx cs =>
    rw [updateChildTag, findChildTag, findChildTag]
    show (updateFirst (tagIs t) f cs).find? (tagIs t) = (cs.find? (tagIs t)).map f
    apply find?_updateFirst
    intro c hc
    rw [tagIs, hf c]
    rw [tagIs] at hc
    exact hc

theorem grpXfrmOfChildren_updateFirst (cs : List XML) :
    grpXfrmOfChildren (updateFirst (tagIs "p:grpSpPr")
      (updateChildTag "a:xfrm" (XML.mapAttrs stripGroupXfrmAttrs)) cs)
      = Option.map stripGroupXfrmAttrs (grpXfrmOfChildren cs) := by
  rw [grpXfrmOfChildren, grpXfrmOfChildren]
  rw [find?_updateFirst _ _ _ (fun c hc => by
    rw [tagIs, (updateChildTag_parts _ _ _).1]
    rw [tagIs] at hc
    exact hc)]
  cases h : cs.find? (tagIs "p:grpSpPr") with
  | none => rfl
  | some pr =>
    simp only [Option.map_some', Option.some_bind]
    rw [findChildTag_updateChildTag _ _ _ (fun z => mapAttrs_tag _ z)]
    cases h2 : findChildTag "a:xfrm" pr with
    | none => rfl
    | some xf =>
      simp only [Option.map_some']
      rw [attrs_mapAttrs]

theorem tagIs_set_auto_fit (t : String) (c : XML) :
    tagIs t (set_auto_fit c) = tagIs t c := by
  rw [tagIs, tagIs, (set_auto_fit_parts c).1]

theorem set_auto_fit_other (t : String) (a : List (String × Str)) (tx : Option Str)
    (cs : List XML) (h1 : ¬ (t = "p:sp")) (h2 : ¬ (t = "p:grpSp")) :
    set_auto_fit (.elem t a tx cs) = .elem t a tx (setAutoFitList cs) := by
  rw [set_auto_fit, if_neg h1, if_neg h2]

theorem grpXfrmOfChildren_setAutoFitList (cs : List XML) :
    grpXfrmOfChildren (setAutoFitList cs) = grpXfrmOfChildren cs := by
  rw [setAutoFitList_eq_map, grpXfrmOfChildren, grpXfrmOfChildren, List.find?_map]
  have hpred : (tagIs "p:grpSpPr" ∘ set_auto_fit) = tagIs "p:grpSpPr" := by
    funext c
    exact tagIs_set_auto_fit _ c
  rw [hpred]
  cases h : cs.find? (tagIs "p:grpSpPr") with
  | none => rfl
  | some pr =>
    simp only [Option.map_some', Option.some_bind]
    have htag : pr.tag = "p:grpSpPr" := by
      have h2 := List.find?_some h
      rw [tagIs] at h2
      exact eq_of_beq h2
    cases pr with
    | elem t a tx ccs =>
      rw [XML.tag] at htag
      subst htag
      rw [set_auto_fit_other _ _ _ _ (by decide) (by decide)]
      show ((setAutoFitList ccs).find? (tagIs "a:xfrm")).map XML.attrs
          = (ccs.find? (tagIs "a:xfrm")).map XML.attrs
      rw [setAutoFitList_eq_map, List.find?_map]
      have hpred2 : (tagIs "a:xfrm" ∘ set_auto_fit) = tagIs "a:xfrm" := by
        funext c
        exact tagIs_set_auto_fit _ c
      rw [hpred2]
      cases h3 : ccs.find? (tagIs "a:xfrm") with
      | none => rfl
      | some xf =>
        simp only [Option.map_some']
        rw [(set_auto_fit_parts xf).2]

mutual
theorem grpXfrms_set_auto_fit : ∀ x : XML, spGrpFree x = true →
    grpXfrms (set_auto_fit x) = (grpXfrms x).map (Option.map stripGroupXfrmAttrs)
  | .elem t a tx cs, h => by
    rw [set_auto_fit]
    by_cases hsp : t = "p:sp"
    · rw [if_pos hsp]
      have hcs : grpFreeList cs = true := by
        rw [spGrpFree, if_pos (by simp [hsp])] at h
        exact h
      have hcs' := grpFree_setAutoFitList cs hcs
      have hfree : grpFree (XML.elem t a tx (setAutoFitList cs)) = true := by
        rw [grpFree]
        exact bAnd_mpr (by simp [hsp]) hcs'
      rw [grpFree_grpXfrms _ (grpFree_set_shape_auto_fit _ hfree)]
      have hfree0 : grpFree (XML.elem t a tx cs) = true := by
        rw [grpFree]
        exact bAnd_mpr (by simp [hsp]) hcs
      rw [grpFree_grpXfrms _ hfree0]
      rfl
    · rw [if_neg hsp]
      have hlist : spGrpFreeList cs = true := by
        rw [spGrpFree, if_neg (by simpa using hsp)] at h
        exact h
      by_cases hgrp : t = "p:grpSp"
      · rw [if_pos hgrp]
        rw [fixGrpSp, updateChildTag]
        rw [grpXfrms, grpXfrms, if_pos hgrp, if_pos hgrp]
        rw [grpXfrmOfChildren_updateFirst]
        rw [grpXfrmsList_updateFirst _ _ _ (fun c _ hc => by
          apply grpXfrms_updateChildTag
          · rw [tagIs] at hc
            rw [eq_of_beq hc]
            decide
          · exact fun z => grpXfrms_mapAttrs _ z)]
        rw [grpXfrmOfChildren_setAutoFitList]
        rw [grpXfrmsList_setAutoFitList cs hlist]
        simp
      · rw [if_neg hgrp]
        rw [grpXfrms, grpXfrms, if_neg hgrp, if_neg hgrp]
        simp only [List.nil_append]
        exact grpXfrmsList_setAutoFitList cs hlist
theorem grpXfrmsList_setAutoFitList : ∀ cs : List XML, spGrpFreeList cs = true →
    grpXfrmsList (setAutoFitList cs)
      = (grpXfrmsList cs).map (Option.map stripGroupXfrmAttrs)
  | [], _ => rfl
  | c :: cs, h => by
    rw [spGrpFreeList] at h
    rcases bAnd_mp h with ⟨h1, h2⟩
    rw [setAutoFitList, grpXfrmsList, grpXfrmsList, List.map_append]
    rw [grpXfrms_set_auto_fit c h1, grpXfrmsList_setAutoFitList cs h2]
end

/-- C5: on a schema-shaped slide (no group nested inside a simple shape's
body), `set_auto_fit` maps every group shape's `grpSpPr/xfrm` attribute
map — at every nesting depth, in document order — through
`stripGroupXfrmAttrs`, which removes `cx`/`cy` and leaves the values of
`off`, `ext`, `chOff` and `chExt` exactly unchanged. -/
theorem set_auto_fit_group_transforms (x : XML) (h : spGrpFree x = true) :
    grpXfrms (set_auto_fit x) = (grpXfrms x).map (Option.map stripGroupXfrmAttrs)
    ∧ ∀ a : List (String × Str),
        getAttr (stripGroupXfrmAttrs a) "cx" = none
        ∧ getAttr (stripGroupXfrmAttrs a) "cy" = none
        ∧ getAttr (stripGroupXfrmAttrs a) "off" = getAttr a "off"
        ∧ getAttr (stripGroupXfrmAttrs a) "ext" = getAttr a "ext"
        ∧ getAttr (stripGroupXfrmAttrs a) "chOff" = getAttr a "chOff"
        ∧ getAttr (stripGroupXfrmAttrs a) "chExt" = getAttr a "chExt" :=
  ⟨grpXfrms_set_auto_fit x h, fun a => stripGroupXfrmAttrs_getAttr a⟩

/-- A slide with a group holding a nested group and a simple shape, used as
the C5 witness. -/
def exampleSlideC5 : XML :=
  .elem "p:sld" [] none
    [ .elem "p:grpSp" [] none
        [ .elem "p:grpSpPr" [] none
            [ .elem "a:xfrm"
                [("off", "0,0".toList), ("ext", "100,100".toList),
                  ("chOff", "0,0".toList), ("chExt", "200,200".toList),
                  ("cx", "100".toList), ("cy", "100".toList)] none [] ],
          .elem "p:grpSp" [] none
            [ .elem "p:grpSpPr" [] none
                [ .elem "a:xfrm" [("off", "5,5".toList), ("cx", "7".toList)] none [] ] ],
          .elem "p:sp" [] none [.elem "a:txBody" [] none []] ] ]

/-- C5 witness: the concrete nested-group slide satisfies the hypothesis
and the conclusion. -/
theorem set_auto_fit_group_transforms_witness :
    spGrpFree exampleSlideC5 = true
    ∧ (grpXfrms (set_auto_fit exampleSlideC5)
          = (grpXfrms exampleSlideC5).map (Option.map stripGroupXfrmAttrs)
        ∧ ∀ a : List (String × Str),
            getAttr (stripGroupXfrmAttrs a) "cx" = none
            ∧ getAttr (stripGroupXfrmAttrs a) "cy" = none
            ∧ getAttr (stripGroupXfrmAttrs a) "off" = getAttr a "off"
            ∧ getAttr (stripGroupXfrmAttrs a) "ext" = getAttr a "ext"
            ∧ getAttr (stripGroupXfrmAttrs a) "chOff" = getAttr a "chOff"
            ∧ getAttr (stripGroupXfrmAttrs a) "chExt" = getAttr a "chExt") :=
  ⟨by decide, set_auto_fit_group_transforms exampleSlideC5 (by decide)⟩

/-- `s[a:b]` — Python slicing with nonnegative indices (empty when
`b ≤ a`, clamped at the end of the string). -/
def slice (s : Str) (a b : ℕ) : Str := (s.drop a).take (b - a)

/-- The scan behind Python `s.find(c, start)`: the first index `≥ start`
holding `c`, `none` for Python's `-1`. -/
def findCharIdx (c : Char) (start : ℕ) : Str → ℕ → Option ℕ
  | [], _ => none
  | x :: xs, i => if start ≤ i ∧ x = c then some i else findCharIdx c start xs (i + 1)

/-- Python `s.find(c, start)` for a single character. -/
def pyFindChar (c : Char) (s : Str) (start : ℕ) : Option ℕ := findCharIdx c start s 0

/-- The punctuation-search loop of `translate_slide`: for each punctuation
character, find its first occurrence at or after the scaled break position;
keep the smallest found position plus one. -/
def punctPos (s : Str) (tbp : ℕ) : Option ℕ :=
  ".,:;?!".toList.foldl
    (fun acc punct =>
      match pyFindChar punct s tbp with
      | none => acc
      | some pos =>
        match acc with
        | none => some (pos + 1)
        | some stored => if pos < stored then some (pos + 1) else acc)
    none

/-- Snap the scaled break position to the nearest following space or
punctuation boundary, or keep it unsnapped when neither exists. -/
def snapBreak (s : Str) (tbp : ℕ) : ℕ :=
  match pyFindChar ' ' s tbp, punctPos s tbp with
  | some sp, some pp => min sp pp
  | some sp, none => sp
  | none, some pp => pp
  | none, none => tbp

/-- Running line-break offsets: the cumulative sums of the line lengths
(newline characters excluded, as in the source's `current_pos`
accumulation). -/
def cumLensFrom (pos : ℕ) : List Str → List ℕ
  | [] => []
  | l :: ls => (pos + l.length) :: cumLensFrom (pos + l.length) ls

/-- `line_breaks` of `translate_slide`. -/
def line_breaks (original : Str) : List ℕ :=
  cumLensFrom 0 (splitOnSub ['\n'] original)

/-- The scaled break position `int(break_pos * ratio)` of one loop step. -/
def scaledPos (sf : ℚ) (b : ℕ) : ℕ := (pyTrunc (qMul (b : ℚ) sf)).toNat

/-- The per-break loop of the re-segmentation step: slice the translation
at snapped scaled break positions, strip each slice, keep nonempty lines.
Returns the collected lines and the final `last_pos`. -/
def resegmentLoop (t' : Str) (sf : ℚ) : List ℕ → ℕ → List Str → (List Str × ℕ)
  | [], last, acc => (acc, last)
  | b :: bs, last, acc =>
    if scaledPos sf b < t'.length then
      let bp := snapBreak t' (scaledPos sf b)
      let line := pyStrip (slice t' last bp)
      resegmentLoop t' sf bs bp (if line ≠ [] then acc ++ [line] else acc)
    else
      resegmentLoop t' sf bs last acc

/-- The full re-segmentation of `translate_slide`: proportionally scaled,
snapped line breaks, plus a final stripped remainder line. -/
def resegment_lines (original t' : Str) : List Str :=
  let sf : ℚ := Rat.divInt (t'.length : ℤ) (original.length : ℤ)
  let r := resegmentLoop t' sf (line_breaks original) 0 []
  if r.2 < t'.length then
    let last_line := pyStrip (slice t' r.2 t'.length)
    if last_line ≠ [] then r.1 ++ [last_line] else r.1
  else r.1

/-- C3 counterexample: re-segmenting the translation `"ab cd"` of
`"ab\ncd"` yields lines `["ab", "c", "d"]`, whose concatenation `"abcd"`
drops the space of the translation — the lines do not reconstruct it. -/
theorem resegment_counterexample :
    resegment_lines "ab\ncd".toList "ab cd".toList
        = ["ab".toList, "c".toList, "d".toList]
    ∧ (resegment_lines "ab\ncd".toList "ab cd".toList).flatten ≠ "ab cd".toList := by
  exact ⟨by decide, by decide⟩

theorem findCharIdx_bounds (c : Char) (start : ℕ) :
    ∀ (l : Str) (i p : ℕ), findCharIdx c start l i = some p →
      start ≤ p ∧ i ≤ p ∧ p < i + l.length := by
  intro l
  induction l with
  | nil => intro i p h; simp [findCharIdx] at h
  | cons x xs ih =>
    intro i p h
    rw [findCharIdx] at h
    split at h
    · rename_i hcond
      cases h
      exact ⟨hcond.1, le_refl _, by simp⟩
    · rcases ih (i + 1) p h with ⟨h1, h2, h3⟩
      refine ⟨h1, by omega, by simp only [List.length_cons]; omega⟩

theorem findCharIdx_mono (c : Char) (s1 s2 : ℕ) (hs : s1 ≤ s2) :
    ∀ (l : Str) (i p2 : ℕ), findCharIdx c s2 l i = some p2 →
      ∃ p1, findCharIdx c s1 l i = some p1 ∧ p1 ≤ p2 := by
  intro l
  induction l with
  | nil => intro i p2 h; simp [findCharIdx] at h
  | cons x xs ih =>
    intro i p2 h
    rw [findCharIdx] at h
    split at h
    · rename_i hcond
      injection h with h2
      subst h2
      exact ⟨i, by rw [findCharIdx, if_pos ⟨le_trans hs hcond.1, hcond.2⟩], le_refl _⟩
    · rename_i hcond
      rcases ih (i + 1) p2 h with ⟨p1, hp1, hle⟩
      by_cases h1 : s1 ≤ i ∧ x = c
      · refine ⟨i, by rw [findCharIdx, if_pos h1], ?_⟩
        have := (findCharIdx_bounds c s2 xs (i + 1) p2 h).2.1
        omega
      · exact ⟨p1, by rw [findCharIdx, if_neg h1]; exact hp1, hle⟩

theorem findCharIdx_none_bound (c : Char) (s1 s2 : ℕ) :
    ∀ (l : Str) (i p1 : ℕ), findCharIdx c s2 l i = none →
      findCharIdx c s1 l i = some p1 → p1 < s2 := by
  intro l
  induction l with
  | nil => intro i p1 _ h; simp [findCharIdx] at h
  | cons x xs ih =>
    intro i p1 hn h
    rw [findCharIdx] at hn h
    split at h
    · rename_i hcond
      injection h with h2
      subst h2
      split at hn
      · cases hn
      · rename_i hcond2
        rw [not_and] at hcond2
        by_cases hi : s2 ≤ i
        · exact absurd hcond.2 (hcond2 hi)
        · omega
    · split at hn
      · cases hn
      · exact ih (i + 1) p1 hn h

theorem pyFindChar_bounds (c : Char) (s : Str) (start p : ℕ)
    (h : pyFindChar c s start = some p) : start ≤ p ∧ p < s.length := by
  rcases findCharIdx_bounds c start s 0 p h with ⟨h1, _, h3⟩
  exact ⟨h1, by simpa using h3⟩

theorem pyFindChar_mono (c : Char) (s : Str) (s1 s2 p2 : ℕ) (hs : s1 ≤ s2)
    (h : pyFindChar c s s2 = some p2) :
    ∃ p1, pyFindChar c s s1 = some p1 ∧ p1 ≤ p2 :=
  findCharIdx_mono c s1 s2 hs s 0 p2 h

theorem pyFindChar_none_bound (c : Char) (s : Str) (s1 s2 p1 : ℕ)
    (hn : pyFindChar c s s2 = none) (h : pyFindChar c s s1 = some p1) : p1 < s2 :=
  findCharIdx_none_bound c s1 s2 s 0 p1 hn h

/-- Invariant of the punctuation fold: `acc` is `none` when no processed
character occurs at or after the break position, else the smallest
occurrence position plus one. -/
def PunctInv (s : Str) (t : ℕ) (done : List Char) : Option ℕ → Prop
  | none => ∀ c ∈ done, pyFindChar c s t = none
  | some q => ∃ m, q = m + 1 ∧ (∃ c ∈ done, pyFindChar c s t = some m)
      ∧ ∀ c ∈ done, ∀ p, pyFindChar c s t = some p → m ≤ p

theorem punctPos_fold (s : Str) (t : ℕ) :
    ∀ (csl : List Char) (acc : Option ℕ) (done : List Char),
      PunctInv s t done acc →
      PunctInv s t (done ++ csl)
        (csl.foldl
          (fun acc punct =>
            match pyFindChar punct s t with
            | none => acc
            | some pos =>
              match acc with
              | none => some (pos + 1)
              | some stored => if pos < stored then some (pos + 1) else acc)
          acc) := by
  intro csl
  induction csl with
  | nil => intro acc done h; simpa using h
  | cons c rest ih =>
    intro acc done h
    rw [List.foldl_cons]
    rw [show done ++ c :: rest = (done ++ [c]) ++ rest by simp]
    apply ih
    · cases hf : pyFindChar c s t with
      | none =>
        cases acc with
        | none =>
          intro c2 hc2
          rcases List.mem_append.mp hc2 with h2 | h2
          · exact h c2 h2
          · rw [List.mem_singleton.mp h2]
            exact hf
        | some q =>
          rcases h with ⟨m, hq, ⟨c0, hc0, hf0⟩, hmin⟩
          refine ⟨m, hq, ⟨c0, List.mem_append_left _ hc0, hf0⟩, ?_⟩
          intro c2 hc2 p hp
          rcases List.mem_append.mp hc2 with h2 | h2
          · exact hmin c2 h2 p hp
          · rw [List.mem_singleton.mp h2] at hp
            rw [hf] at hp
            cases hp
      | some pos =>
        cases acc with
        | none =>
          refine ⟨pos, rfl, ⟨c, List.mem_append_right _ (List.mem_singleton_self c), hf⟩, ?_⟩
          intro c2 hc2 p hp
          rcases List.mem_append.mp hc2 with h2 | h2
          · rw [h c2 h2] at hp
            cases hp
          · rw [List.mem_singleton.mp h2] at hp
            rw [hf] at hp
            injection hp with hp2
            omega
        | some stored =>
          rcases h with ⟨m, hq, ⟨c0, hc0, hf0⟩, hmin⟩
          show PunctInv s t (done ++ [c])
            (if pos < stored then some (pos + 1) else some stored)
          by_cases hlt : pos < stored
          · rw [if_pos hlt]
            refine ⟨pos, rfl, ⟨c, List.mem_append_right _ (List.mem_singleton_self c), hf⟩, ?_⟩
            intro c2 hc2 p hp
            rcases List.mem_append.mp hc2 with h2 | h2
            · have := hmin c2 h2 p hp
              omega
            · rw [List.mem_singleton.mp h2] at hp
              rw [hf] at hp
              injection hp with hp2
              omega
          · rw [if_neg hlt]
            refine ⟨m, hq, ⟨c0, List.mem_append_left _ hc0, hf0⟩, ?_⟩
            intro c2 hc2 p hp
            rcases List.mem_append.mp hc2 with h2 | h2
            · exact hmin c2 h2 p hp
            · rw [List.mem_singleton.mp h2] at hp
              rw [hf] at hp
              injection hp with hp2
              omega

theorem punctPos_inv (s : Str) (t : ℕ) :
    PunctInv s t ".,:;?!".toList (punctPos s t) := by
  have h := punctPos_fold s t ".,:;?!".toList none [] (by intro c hc; simp at hc)
  simpa [punctPos] using h

theorem punctPos_some (s : Str) (t q : ℕ) (h : punctPos s t = some q) :
    ∃ m, q = m + 1 ∧ (∃ c ∈ ".,:;?!".toList, pyFindChar c s t = some m)
      ∧ ∀ c ∈ ".,:;?!".toList, ∀ p, pyFindChar c s t = some p → m ≤ p := by
  have := punctPos_inv s t
  rw [h] at this
  exact this

theorem punctPos_none (s : Str) (t : ℕ) (h : punctPos s t = none) :
    ∀ c ∈ ".,:;?!".toList, pyFindChar c s t = none := by
  have := punctPos_inv s t
  rw [h] at this
  exact this

theorem punctPos_bounds (s : Str) (t q : ℕ) (h : punctPos s t = some q) :
    t < q ∧ q ≤ s.length := by
  rcases punctPos_some s t q h with ⟨m, hq, ⟨c, _, hf⟩, _⟩
  rcases pyFindChar_bounds c s t m hf with ⟨h1, h2⟩
  omega

theorem punctPos_mono (s : Str) (t1 t2 q2 : ℕ) (h : t1 ≤ t2)
    (h2 : punctPos s t2 = some q2) :
    ∃ q1, punctPos s t1 = some q1 ∧ q1 ≤ q2 := by
  rcases punctPos_some s t2 q2 h2 with ⟨m2, hq2, ⟨c, hc, hf2⟩, _⟩
  rcases pyFindChar_mono c s t1 t2 m2 h hf2 with ⟨p1, hf1, hple⟩
  cases h1 : punctPos s t1 with
  | none => exact absurd hf1 (by rw [punctPos_none s t1 h1 c hc]; simp)
  | some q1 =>
    rcases punctPos_some s t1 q1 h1 with ⟨m1, hq1, _, hmin1⟩
    have := hmin1 c hc p1 hf1
    exact ⟨q1, rfl, by omega⟩

theorem punctPos_none_bound (s : Str) (t1 t2 q1 : ℕ)
    (hn : punctPos s t2 = none) (h1 : punctPos s t1 = some q1) : q1 ≤ t2 := by
  rcases punctPos_some s t1 q1 h1 with ⟨m1, hq1, ⟨c, hc, hf1⟩, _⟩
  have := pyFindChar_none_bound c s t1 t2 m1 (punctPos_none s t2 hn c hc) hf1
  omega

theorem snapBreak_le (s : Str) (t : ℕ) (h : t ≤ s.length) :
    snapBreak s t ≤ s.length := by
  unfold snapBreak
  cases hs : pyFindChar ' ' s t with
  | some sp =>
    have hb := (pyFindChar_bounds ' ' s t sp hs).2
    cases hp : punctPos s t with
    | some pp =>
      have := (punctPos_bounds s t pp hp).2
      exact le_trans (min_le_left _ _) (le_of_lt hb)
    | none => exact le_of_lt hb
  | none =>
    cases hp : punctPos s t with
    | some pp => exact (punctPos_bounds s t pp hp).2
    | none => exact h

theorem snapBreak_mono (s : Str) (t1 t2 : ℕ) (h : t1 ≤ t2) :
    snapBreak s t1 ≤ snapBreak s t2 := by
  unfold snapBreak
  cases h2s : pyFindChar ' ' s t2 with
  | some sp2 =>
    rcases pyFindChar_mono ' ' s t1 t2 sp2 h h2s with ⟨sp1, h1s, hsp⟩
    rw [h1s]
    cases h2p : punctPos s t2 with
    | some pp2 =>
      rcases punctPos_mono s t1 t2 pp2 h h2p with ⟨pp1, h1p, hpp⟩
      rw [h1p]
      exact min_le_min hsp hpp
    | none =>
      cases h1p : punctPos s t1 with
      | some pp1 =>
        have hb := punctPos_none_bound s t1 t2 pp1 h2p h1p
        have hsp2 := (pyFindChar_bounds ' ' s t2 sp2 h2s).1
        exact le_trans (min_le_right _ _) (le_trans hb hsp2)
      | none => exact hsp
  | none =>
    cases h1s : pyFindChar ' ' s t1 with
    | some sp1 =>
      have hsb := pyFindChar_none_bound ' ' s t1 t2 sp1 h2s h1s
      cases h2p : punctPos s t2 with
      | some pp2 =>
        have hpp2 := (punctPos_bounds s t2 pp2 h2p).1
        cases h1p : punctPos s t1 with
        | some pp1 =>
          rcases punctPos_mono s t1 t2 pp2 h h2p with ⟨pp1x, h1px, hppx⟩
          rw [h1p] at h1px
          injection h1px with heq
          subst heq
          exact le_trans (min_le_right _ _) hppx
        | none =>
          rcases punctPos_mono s t1 t2 pp2 h h2p with ⟨pp1x, h1px, _⟩
          rw [h1p] at h1px
          cases h1px
      | none =>
        cases h1p : punctPos s t1 with
        | some pp1 =>
          have := punctPos_none_bound s t1 t2 pp1 h2p h1p
          exact le_trans (min_le_right _ _) this
        | none =>
          show sp1 ≤ t2
          omega
    | none =>
      cases h2p : punctPos s t2 with
      | some pp2 =>
        have hpp2 := (punctPos_bounds s t2 pp2 h2p).1
        cases h1p : punctPos s t1 with
        | some pp1 =>
          rcases punctPos_mono s t1 t2 pp2 h h2p with ⟨pp1x, h1px, hppx⟩
          rw [h1p] at h1px
          injection h1px with heq
          subst heq
          exact hppx
        | none =>
          rcases punctPos_mono s t1 t2 pp2 h h2p with ⟨pp1x, h1px, _⟩
          rw [h1p] at h1px
          cases h1px
      | none =>
        cases h1p : punctPos s t1 with
        | some pp1 => exact punctPos_none_bound s t1 t2 pp1 h2p h1p
        | none => exact h

theorem slice_append (t' : Str) (a b e : ℕ) (hab : a ≤ b) (hbe : b ≤ e) :
    slice t' a b ++ slice t' b e = slice t' a e := by
  unfold slice
  rw [show e - a = (b - a) + (e - b) by omega, List.take_add]
  congr 1
  rw [List.drop_drop, show a + (b - a) = b by omega]

theorem countP_pyStrip_nil (x : Str) (h : pyStrip x = []) :
    x.countP (fun c => !isPySpace c) = 0 := by
  rw [← countP_pyStrip, h]
  rfl

theorem scaledPos_mono (sf : ℚ) (hsf : 0 ≤ sf) (b b' : ℕ) (h : b ≤ b') :
    scaledPos sf b ≤ scaledPos sf b' := by
  unfold scaledPos
  apply Int.toNat_le_toNat
  unfold pyTrunc
  rw [qMul_eq, qMul_eq]
  have h0 : (0 : ℚ) ≤ (b : ℚ) * sf := mul_nonneg (by positivity) hsf
  have h0' : (0 : ℚ) ≤ (b' : ℚ) * sf := mul_nonneg (by positivity) hsf
  rw [if_pos h0, if_pos h0', ratFloor_eq, ratFloor_eq]
  exact Int.floor_le_floor (mul_le_mul_of_nonneg_right (by exact_mod_cast h) hsf)

theorem cumLensFrom_ge (pos : ℕ) (ls : List Str) :
    ∀ b ∈ cumLensFrom pos ls, pos ≤ b := by
  induction ls generalizing pos with
  | nil => intro b hb; simp [cumLensFrom] at hb
  | cons l ls ih =>
    intro b hb
    rw [cumLensFrom] at hb
    rcases List.mem_cons.mp hb with rfl | hb
    · omega
    · have := ih (pos + l.length) b hb
      omega

theorem cumLensFrom_pairwise (pos : ℕ) (ls : List Str) :
    List.Pairwise (· ≤ ·) (cumLensFrom pos ls) := by
  induction ls generalizing pos with
  | nil => exact List.Pairwise.nil
  | cons l ls ih =>
    rw [cumLensFrom]
    exact List.Pairwise.cons (fun b hb => cumLensFrom_ge _ _ b hb) (ih _)

theorem resegmentLoop_spec (t' : Str) (sf : ℚ) (hsf : 0 ≤ sf) :
    ∀ (bs : List ℕ), List.Pairwise (· ≤ ·) bs →
    ∀ (last : ℕ) (acc : List Str),
      last ≤ t'.length →
      (∀ b ∈ bs, scaledPos sf b < t'.length → last ≤ snapBreak t' (scaledPos sf b)) →
      last ≤ (resegmentLoop t' sf bs last acc).2
      ∧ (resegmentLoop t' sf bs last acc).2 ≤ t'.length
      ∧ ∃ ext, (resegmentLoop t' sf bs last acc).1 = acc ++ ext
          ∧ List.Sublist ext.flatten (slice t' last (resegmentLoop t' sf bs last acc).2)
          ∧ ext.flatten.countP (fun c => !isPySpace c)
              = (slice t' last (resegmentLoop t' sf bs last acc).2).countP
                  (fun c => !isPySpace c) := by
  intro bs
  induction bs with
  | nil =>
    intro _ last acc hlast _
    refine ⟨le_refl _, hlast, [], by simp [resegmentLoop], ?_, ?_⟩
    · show List.Sublist ([] : Str) (slice t' last last)
      exact List.nil_sublist _
    · show ([] : Str).countP _ = (slice t' last last).countP _
      rw [show slice t' last last = [] by unfold slice; simp]
  | cons b bs ih =>
    intro hpw last acc hlast hinv
    simp only [resegmentLoop]
    by_cases htb : scaledPos sf b < t'.length
    · rw [if_pos htb]
      have hlastbp : last ≤ snapBreak t' (scaledPos sf b) :=
        hinv b (List.mem_cons_self _ _) htb
      have hbple : snapBreak t' (scaledPos sf b) ≤ t'.length :=
        snapBreak_le t' _ (le_of_lt htb)
      have hinv' : ∀ b' ∈ bs, scaledPos sf b' < t'.length →
          snapBreak t' (scaledPos sf b) ≤ snapBreak t' (scaledPos sf b') := by
        intro b' hb' _
        exact snapBreak_mono t' _ _
          (scaledPos_mono sf hsf b b' ((List.pairwise_cons.mp hpw).1 b' hb'))
      have IH := ih (List.pairwise_cons.mp hpw).2 (snapBreak t' (scaledPos sf b))
        (if pyStrip (slice t' last (snapBreak t' (scaledPos sf b))) ≠ [] then
          acc ++ [pyStrip (slice t' last (snapBreak t' (scaledPos sf b)))] else acc)
        hbple hinv'
      obtain ⟨h1, h2, ext, hr1, hsub, hcnt⟩ := IH
      by_cases hline : pyStrip (slice t' last (snapBreak t' (scaledPos sf b))) ≠ []
      · rw [if_pos hline] at h1 h2 hr1 hsub hcnt ⊢
        have hslices := slice_append t' last (snapBreak t' (scaledPos sf b)) _ hlastbp h1
        refine ⟨le_trans hlastbp h1, h2,
          pyStrip (slice t' last (snapBreak t' (scaledPos sf b))) :: ext, ?_, ?_, ?_⟩
        · rw [hr1]
          simp
        · rw [List.flatten_cons, ← hslices]
          exact (pyStrip_sublist _).append hsub
        · rw [List.flatten_cons, ← hslices, List.countP_append, List.countP_append,
            countP_pyStrip, hcnt]
      · rw [if_neg hline] at h1 h2 hr1 hsub hcnt ⊢
        push_neg at hline
        have hslices := slice_append t' last (snapBreak t' (scaledPos sf b)) _ hlastbp h1
        refine ⟨le_trans hlastbp h1, h2, ext, hr1, ?_, ?_⟩
        · refine hsub.trans ?_
          rw [← hslices]
          exact List.sublist_append_right _ _
        · rw [← hslices, List.countP_append, countP_pyStrip_nil _ hline, hcnt]
          omega
    · rw [if_neg htb]
      exact ih (List.pairwise_cons.mp hpw).2 last acc hlast
        (fun b' hb' h => hinv b' (List.mem_cons_of_mem _ hb') h)

/-- C3 (amended): the re-segmented lines are, in order, disjoint stripped
slices of the translation: their concatenation is a subsequence of `T'`
(nothing duplicated or reordered) containing every non-whitespace character
of `T'` — only whitespace at slice boundaries is dropped, as the
counterexample forces. -/
theorem resegment_spec (T T' : Str) (h : T ≠ []) :
    List.Sublist (resegment_lines T T').flatten T'
    ∧ (resegment_lines T T').flatten.countP (fun c => !isPySpace c)
        = T'.countP (fun c => !isPySpace c) := by
  have hsf : (0 : ℚ) ≤ Rat.divInt (T'.length : ℤ) (T.length : ℤ) := by
    rw [Rat.divInt_eq_div]
    positivity
  have hspec := resegmentLoop_spec T' _ hsf (line_breaks T)
    (by rw [line_breaks]; exact cumLensFrom_pairwise 0 _) 0 []
    (Nat.zero_le _) (fun b _ _ => Nat.zero_le _)
  obtain ⟨h0, hlen, ext, hr1, hsub, hcnt⟩ := hspec
  have hTfull : slice T' 0 T'.length = T' := by
    unfold slice
    simp
  unfold resegment_lines
  by_cases hfin :
      (resegmentLoop T' (Rat.divInt (T'.length : ℤ) (T.length : ℤ))
        (line_breaks T) 0 []).2 < T'.length
  · rw [if_pos hfin]
    have hsl : slice T' 0 (resegmentLoop T' (Rat.divInt (T'.length : ℤ) (T.length : ℤ))
          (line_breaks T) 0 []).2
        ++ slice T' (resegmentLoop T' (Rat.divInt (T'.length : ℤ) (T.length : ℤ))
          (line_breaks T) 0 []).2 T'.length = T' := by
      rw [slice_append T' 0 _ T'.length (Nat.zero_le _) hlen, hTfull]
    by_cases hll : pyStrip (slice T'
        (resegmentLoop T' (Rat.divInt (T'.length : ℤ) (T.length : ℤ))
          (line_breaks T) 0 []).2 T'.length) ≠ []
    · rw [if_pos hll]
      rw [hr1, List.nil_append]
      constructor
      · rw [List.flatten_append, List.flatten_cons, List.flatten_nil, List.append_nil]
        have hx := hsub.append (pyStrip_sublist (slice T'
          (resegmentLoop T' (Rat.divInt (T'.length : ℤ) (T.length : ℤ))
            (line_breaks T) 0 []).2 T'.length))
        rw [hsl] at hx
        exact hx
      · rw [List.flatten_append, List.flatten_cons, List.flatten_nil, List.append_nil,
          List.countP_append, hcnt, countP_pyStrip]
        conv_rhs => rw [← hsl]
        rw [List.countP_append]
    · rw [if_neg hll]
      push_neg at hll
      rw [hr1, List.nil_append]
      constructor
      · refine hsub.trans ?_
        have hx : List.Sublist
            (slice T' 0 (resegmentLoop T' (Rat.divInt (T'.length : ℤ) (T.length : ℤ))
              (line_breaks T) 0 []).2)
            (slice T' 0 (resegmentLoop T' (Rat.divInt (T'.length : ℤ) (T.length : ℤ))
              (line_breaks T) 0 []).2
            ++ slice T' (resegmentLoop T' (Rat.divInt (T'.length : ℤ) (T.length : ℤ))
              (line_breaks T) 0 []).2 T'.length) := List.sublist_append_left _ _
        rw [hsl] at hx
        exact hx
      · rw [hcnt]
        conv_rhs => rw [← hsl]
        rw [List.countP_append, countP_pyStrip_nil _ hll]
        omega
  · rw [if_neg hfin]
    have heq : (resegmentLoop T' (Rat.divInt (T'.length : ℤ) (T.length : ℤ))
        (line_breaks T) 0 []).2 = T'.length := le_antisymm hlen (not_lt.mp hfin)
    rw [hr1, List.nil_append]
    rw [heq, hTfull] at hsub hcnt
    exact ⟨hsub, hcnt⟩

/-- C3 amended-theorem witness at the counterexample input: `T = "ab\ncd"`,
`T' = "ab cd"`. -/
theorem resegment_spec_witness :
    "ab\ncd".toList ≠ ([] : Str)
    ∧ (List.Sublist (resegment_lines "ab\ncd".toList "ab cd".toList).flatten "ab cd".toList
        ∧ (resegment_lines "ab\ncd".toList "ab cd".toList).flatten.countP
              (fun c => !isPySpace c)
            = "ab cd".toList.countP (fun c => !isPySpace c)) :=
  ⟨by decide, resegment_spec "ab\ncd".toList "ab cd".toList (by decide)⟩

/-! ## C1: the `translate_slide` end-to-end scenario -/

mutual
/-- Structural equality test on trees; it stands in for the source's
element-identity membership test (`last_p in list(p)` and
`children.index(last_p)`, which compare `ET.Element` objects by identity).
On the scenario slide all subtrees are pairwise distinct, where the two
notions coincide. -/
def xmlBeq : XML → XML → Bool
  | .elem t a tx cs, .elem t' a' tx' cs' =>
    t == t' && a == a' && tx == tx' && xmlListBeq cs cs'
/-- List part of `xmlBeq`. -/
def xmlListBeq : List XML → List XML → Bool
  | [], [] => true
  | c :: cs, d :: ds => xmlBeq c d && xmlListBeq cs ds
  | _, _ => false
end

/-- `adjust_element_font_size(element, attrs, is_translation)` acting on the
attribute dict: each listed attribute that is present and parses as an
integer is replaced by the adjusted size; unparseable values (the `except
ValueError` branch) and absent attributes are left alone. -/
def adjustFontAttrs (toAdj : List String) (is_translation : Bool)
    (a : List (String × Str)) : List (String × Str) :=
  toAdj.foldl (fun acc attr =>
    match getAttr acc attr with
    | none => acc
    | some v =>
      match pyInt v with
      | none => acc
      | some size => setAttr acc attr (intToStr (adjust_font_size size is_translation)))
    a

/-- `adjust_element_font_size` on one element. -/
def adjust_element_font_size (toAdj : List String) (is_translation : Bool) :
    XML → XML
  | .elem t a tx cs => .elem t (adjustFontAttrs toAdj is_translation a) tx cs

mutual
/-- The opening pass of `translate_slide`: `adjust_element_font_size(elem)`
(default attribute list `['sz']`, not a translation) on every `.//*[@sz]`
descendant.  Applying the adjustment to every node is the same pass, since
it is the identity on a node without a parseable `sz`. -/
def adjustSzNode : XML → XML
  | .elem t a tx cs =>
    .elem t (adjustFontAttrs ["sz"] false a) tx (adjustSzList cs)
/-- List part of `adjustSzNode`. -/
def adjustSzList : List XML → List XML
  | [] => []
  | c :: cs => adjustSzNode c :: adjustSzList cs
end

/-- The `.//` axis in `root.findall(".//*[@sz]")` selects strict
descendants: the root node itself is not adjusted. -/
def adjustAllSz : XML → XML
  | .elem t a tx cs => .elem t a tx (adjustSzList cs)

mutual
/-- The per-shape font pass of the `translate_slide` text loop: for every
run (`.//a:r` of each `.//a:p`), adjust the direct `a:rPr` child on
`['sz', 'kern', 'spc', 'baseline']`.  Every run of a shape's text body lies
under exactly one paragraph, so visiting each `a:r` descendant once is the
same pass. -/
def adjustRunRPrs : XML → XML
  | .elem t a tx cs =>
    if t == "a:r" then
      updateChildTag "a:rPr"
        (adjust_element_font_size ["sz", "kern", "spc", "baseline"] false)
        (.elem t a tx cs)
    else .elem t a tx (adjustRunRPrsList cs)
/-- List part of `adjustRunRPrs`. -/
def adjustRunRPrsList : List XML → List XML
  | [] => []
  | c :: cs => adjustRunRPrs c :: adjustRunRPrsList cs
end

/-- `create_element_with_style(tag, style_source)`: a fresh `a:<tag>`
element carrying a copy of the style source's direct `a:<tag>Pr` child —
`copy_element_style` copies the attributes and deep-copies the children,
but not the text. -/
def create_element_with_style (tag : String) (style_source : Option XML) : XML :=
  XML.elem ("a:" ++ tag) [] none
    (match style_source with
     | none => []
     | some src =>
       match findChildTag ("a:" ++ tag ++ "Pr") src with
       | none => []
       | some st => [XML.elem ("a:" ++ tag ++ "Pr") st.attrs none st.children])

/-- `find_element_with_style(parent, tag)`: the first `.//a:<tag>`
descendant and its direct `a:<tag>Pr` child. -/
def find_element_with_style (parent : XML) (tag : String) :
    Option XML × Option XML :=
  match findDescTag ("a:" ++ tag) parent with
  | none => (none, none)
  | some e => (some e, findChildTag ("a:" ++ tag ++ "Pr") e)

/-- One iteration of the `create_translated_paragraphs` loop: a new `a:p`
cloning the source paragraph's `a:pPr`, holding one new run cloning the
style run's `a:rPr`; when the style run's `rPr` carries a `sz`, the clone's
`rPr` is shrunk once more with `is_translation=True`; the line text goes in
a final `a:t` child. -/
def create_translated_paragraph (original_p : XML)
    (original_r original_rPr : Option XML) (text : Str) : XML :=
  let new_p := create_element_with_style "p" (some original_p)
  let new_r0 := create_element_with_style "r" original_r
  let new_r1 :=
    match original_rPr with
    | some rPr =>
      if (getAttr rPr.attrs "sz").isSome then
        updateChildTag "a:rPr" (adjust_element_font_size ["sz"] true) new_r0
      else new_r0
    | none => new_r0
  let new_r := XML.elem new_r1.tag new_r1.attrs new_r1.body
    (new_r1.children ++ [XML.elem "a:t" [] (some text) []])
  XML.elem new_p.tag new_p.attrs new_p.body (new_p.children ++ [new_r])

/-- `create_translated_paragraphs(original_p, translated_text)`: one new
paragraph per `'\n'`-separated piece of the processed translation. -/
def create_translated_paragraphs (original_p : XML) (translated_text : Str) :
    List XML :=
  (splitOnSub ['\n'] translated_text).map
    (create_translated_paragraph original_p
      (find_element_with_style original_p "r").1
      (find_element_with_style original_p "r").2)

/-- `children.index(last_p)` and `parent.insert(index + 1 + i, q)`: splice
the new paragraphs right after the first occurrence of the last
paragraph. -/
def insertAfterEq (lastP : XML) (newPs : List XML) : List XML → List XML
  | [] => []
  | c :: cs =>
    if xmlBeq c lastP then c :: (newPs ++ cs)
    else c :: insertAfterEq lastP newPs cs

/-- Whether the node is a parent of `lastP` — the `last_p in list(p)`
membership test run over `root.findall(".//a:p/..")`. -/
def hasChildXml (lastP : XML) (x : XML) : Bool :=
  x.children.any (fun c => xmlBeq c lastP)

/-- The paragraph-insertion step of the `translate_slide` loop: take the
last `.//a:p` of the shape, locate its parent (the source scans every
parent of a paragraph from the slide root, by element identity; that parent
lies inside this shape's subtree, and element identity picks it uniquely),
and insert the translated paragraphs right after it. -/
def insert_translated (shape : XML) (newPs : List XML) : XML :=
  match (findAllTag "a:p" shape).getLast? with
  | none => shape
  | some lastP =>
    if hasChildXml lastP shape then
      match shape with
      | .elem t a tx cs => .elem t a tx (insertAfterEq lastP newPs cs)
    else
      updateFirstDesc (hasChildXml lastP)
        (fun par => XML.elem par.tag par.attrs par.body
          (insertAfterEq lastP newPs par.children))
        shape

/-- One `translate_slide` text-loop iteration for one shape carrying a text
block: the per-run font pass, then translation of the block text, the
re-segmentation of the translation against the original line breaks, the
paragraph creation from the (by now twice-shrunk) first text paragraph —
the source's `elem['paragraph']` is a live reference, so its `rPr` is read
after the font pass — and the insertion after the shape's last paragraph.
A shape contributing no block is untouched; when the translator returns an
empty string the loop `continue`s, keeping the font-pass mutation. -/
def processShape (tr : Str → Str) (shape : XML) : XML :=
  match shapeBlock shape with
  | none => shape
  | some blk =>
    let shape1 := adjustRunRPrs shape
    let translated := tr blk.text
    if translated = [] then shape1
    else
      let processed := joinLines (resegment_lines blk.text translated)
      match firstTextParagraph shape1 with
      | none => shape1
      | some originalP =>
        insert_translated shape1 (create_translated_paragraphs originalP processed)

mutual
/-- The `translate_slide` text loop as one tree pass: `find_text_elements`
yields at most one block per `.//p:sp` shape, in document order, and each
iteration rewrites only its own shape's subtree, so processing each shape
node in place is the same sequence of mutations. -/
def translateShapes (tr : Str → Str) : XML → XML
  | .elem t a tx cs =>
    if t == "p:sp" then processShape tr (.elem t a tx cs)
    else .elem t a tx (translateShapesList tr cs)
/-- List part of `translateShapes`. -/
def translateShapesList (tr : Str → Str) : List XML → List XML
  | [] => []
  | c :: cs => translateShapes tr c :: translateShapesList tr cs
end

/-- `translate_slide` (file parsing, debug printing and writing dropped):
the global `sz` pass, the per-shape translation loop, then `set_auto_fit`
on the root. -/
def translate_slide (tr : Str → Str) (root : XML) : XML :=
  set_auto_fit (translateShapes tr (adjustAllSz root))

/-- Scenario run: one `a:r` with an explicit `rPr sz` and a text. -/
def runC1 (szv txt : String) : XML :=
  .elem "a:r" [] none
    [.elem "a:rPr" [("sz", szv.toList)] none [],
     .elem "a:t" [] (some txt.toList) []]

/-- Scenario paragraph: one run. -/
def paraC1 (szv txt : String) : XML := .elem "a:p" [] none [runC1 szv txt]

/-- The single simple shape of the C1 scenario: a text body holding the
paragraphs `"Hello"` and `"World"`, each with one 24 pt (`sz="2400"`)
run. -/
def shapeC1 : XML :=
  .elem "p:sp" [] none
    [.elem "p:spPr" [] none [],
     .elem "a:txBody" [] none
       [.elem "a:bodyPr" [] none [],
        paraC1 "2400" "Hello", paraC1 "2400" "World"]]

/-- The C1 scenario slide: one shape in the shape tree. -/
def slideC1 : XML :=
  .elem "p:sld" [] none [.elem "p:spTree" [] none [shapeC1]]

/-- The scenario translator: returns `"Bonjour\nMonde"`. -/
def trC1 : Str → Str := fun _ => "Bonjour\nMonde".toList

/-- The translated scenario slide. -/
def outC1 : XML := translate_slide trC1 slideC1

/-- C1 counterexample: the claimed outcome — original runs left at the
ladder value two rungs below 24 pt (`sz="1800"`) and exactly the two
paragraphs `"Bonjour"` and `"Monde"` appended — does not hold: the original
runs are shrunk twice (to `"1400"`), and the re-segmentation splits the
translation into four paragraph texts. -/
theorem translate_slide_counterexample :
    ¬ (((findAllTag "a:p" outC1).map paragraphText
          = ["Hello", "World", "Bonjour", "Monde"].map String.toList)
       ∧ ((findAllTag "a:rPr" outC1).map (fun e => XML.getA e "sz")).take 2
          = [some "1800".toList, some "1800".toList]) := by
  decide

/-- C1 (amended): on the scenario slide, `translate_slide` shrinks the
original runs twice — once in the global `sz` pass (2400 → 1800) and once
more in the per-shape pass (1800 → 1400) — and the proportional
re-segmentation of `"Bonjour\nMonde"` against the breaks of
`"Hello\nWorld"` produces the four appended paragraphs `"Bonjo"`, `"ur"`,
`"Mon"`, `"de"`, whose runs carry the translation size 900 (9 pt, two rungs
below the already twice-shrunk 14 pt); the shape's `bodyPr` is rewritten
with exactly one `spAutoFit` marker. -/
theorem translate_slide_spec :
    ((findAllTag "a:p" outC1).map paragraphText
        = ["Hello", "World", "Bonjo", "ur", "Mon", "de"].map String.toList)
    ∧ ((findAllTag "a:rPr" outC1).map (fun e => XML.getA e "sz")
        = [some "1400".toList, some "1400".toList, some "900".toList,
           some "900".toList, some "900".toList, some "900".toList])
    ∧ ((findAllTag "a:bodyPr" outC1).map
        (fun bp => (bp.children.filter (tagIs "a:spAutoFit")).length) = [1]) := by
  decide

end PPT
